import Mathlib

/-!
Shallow embedding of the `unifrac` crate (files `src/lib.rs`, `src/primant.rs`,
`src/phase.rs`).

The crate defines two fixed-point fraction types, each a newtype over `u32`:
`Primant` (the spec's "SaturatingFraction", closed interval) and `Phase` (the
spec's "CyclicFraction", half-open interval).  Their float conversions are
generic over `num_traits::float::FloatCore`, instantiated in practice at `f32`
and `f64`.

Modelling choices.

* `u32` values are modelled as `ℕ`; every operation that produces a raw code is
  shown (or assumed via guards mirroring the source's asserts) to stay below
  `2 ^ 32`, and `u32` division/multiplication coincide with `ℕ` arithmetic on
  the ranges exercised.
* IEEE binary floating point is modelled exactly: a float value is either a
  special value (`NaN`, `±∞`) or a rational number; every arithmetic operation
  rounds its exact rational result to `p` significant bits (p = 24 for `f32`,
  p = 53 for `f64`) with round-to-nearest, ties-to-even — the IEEE-754 default
  used by Rust.  The exponent range is unbounded; all quantities computed by
  the embedded code lie well inside the normal range of binary32/binary64
  (between 2^-40 and 2^33 or exactly 0), where this model coincides with the
  IEEE formats bit for bit.
* Rust panics (`assert!`, `.unwrap()`) are modelled by `Option`: `none` means
  the call aborts.  `unsafe` unchecked multiplication is likewise modelled by
  `Option`, `none` meaning undefined behavior was invoked.
* The conversions supplied by `num_traits` 0.2 are transcribed from its
  `cast.rs`: `NumCast::from` of a `u32` into a float is the (rounding, always
  successful) `as` cast; `ToPrimitive::to_u32` of a float checks the range
  `(-1, u32::MAX + 1)` exactly for `f64` and uses the rounded bound
  `u32::MAX as f32 = 2^32` followed by a saturating `as` cast for `f32`;
  `num_traits::clamp` compares with `<` and `>` so a `NaN` input is returned
  unchanged.
-/

namespace Unifrac

/-- Round a rational to the nearest integer, ties to the even integer
(the IEEE-754 default rounding used by Rust float arithmetic). -/
def rhe (x : ℚ) : ℤ :=
  if x - ⌊x⌋ < 1/2 then ⌊x⌋
  else if 1/2 < x - ⌊x⌋ then ⌊x⌋ + 1
  else if ⌊x⌋ % 2 = 0 then ⌊x⌋ else ⌊x⌋ + 1

theorem rhe_intCast (n : ℤ) : rhe (n : ℚ) = n := by
  unfold rhe
  rw [Int.floor_intCast]
  norm_num

theorem rhe_le (x : ℚ) : (rhe x : ℚ) ≤ x + 1/2 := by
  have h1 : (⌊x⌋ : ℚ) ≤ x := Int.floor_le x
  have h2 : x < ⌊x⌋ + 1 := Int.lt_floor_add_one x
  unfold rhe
  split_ifs with hlt hgt hev <;> push_cast <;> linarith

theorem le_rhe (x : ℚ) : x - 1/2 ≤ (rhe x : ℚ) := by
  have h1 : (⌊x⌋ : ℚ) ≤ x := Int.floor_le x
  have h2 : x < ⌊x⌋ + 1 := Int.lt_floor_add_one x
  unfold rhe
  split_ifs with hlt hgt hev <;> push_cast <;> linarith

theorem floor_le_rhe (x : ℚ) : ⌊x⌋ ≤ rhe x := by
  unfold rhe
  split_ifs <;> omega

theorem rhe_le_floor_add_one (x : ℚ) : rhe x ≤ ⌊x⌋ + 1 := by
  unfold rhe
  split_ifs <;> omega

theorem rhe_mono {x y : ℚ} (h : x ≤ y) : rhe x ≤ rhe y := by
  rcases lt_or_eq_of_le (Int.floor_le_floor h) with hf | hf
  · calc rhe x ≤ ⌊x⌋ + 1 := rhe_le_floor_add_one x
    _ ≤ ⌊y⌋ := by omega
    _ ≤ rhe y := floor_le_rhe y
  · have hfr : x - ⌊x⌋ ≤ y - ⌊y⌋ := by
      rw [← hf]; linarith
    unfold rhe
    rw [← hf]
    split_ifs <;> (try omega) <;> (exfalso; linarith)

/-- The positive branch of format rounding: for `0 < q`, scale `q` into
`[2^(p-1), 2^p)`, round to an integer (ties to even), and scale back. -/
def rndPos (p : ℕ) (q : ℚ) : ℚ :=
  (rhe (q * 2 ^ ((p : ℤ) - 1 - Int.log 2 q)) : ℚ) * 2 ^ (Int.log 2 q - ((p : ℤ) - 1))

/-- Correct rounding of a rational to a binary floating-point format with `p`
bits of precision and unbounded exponent range (round to nearest, ties to
even).  `p = 24` models IEEE binary32 (`f32`), `p = 53` models binary64
(`f64`); the unbounded exponent is accurate for all values arising here, which
are `0` or of magnitude between `2 ^ (-40)` and `2 ^ 33`. -/
def rnd (p : ℕ) (q : ℚ) : ℚ :=
  if 0 < q then rndPos p q else if q < 0 then -rndPos p (-q) else 0

theorem rnd_zero (p : ℕ) : rnd p 0 = 0 := by
  unfold rnd; norm_num

theorem rnd_of_pos (p : ℕ) {q : ℚ} (hq : 0 < q) : rnd p q = rndPos p q := by
  unfold rnd
  rw [if_pos hq]

/-- A rational is representable in precision `p` when it is `m * 2 ^ t`
with `|m| < 2 ^ p` (unbounded exponent range). -/
def FpRep (p : ℕ) (q : ℚ) : Prop :=
  ∃ m : ℤ, ∃ t : ℤ, m.natAbs < 2 ^ p ∧ q = (m : ℚ) * 2 ^ t

theorem two_zpow_pos (e : ℤ) : (0:ℚ) < 2 ^ e :=
  zpow_pos (by norm_num) e

theorem two_zpow_mono {e f : ℤ} (h : e ≤ f) : (2:ℚ) ^ e ≤ 2 ^ f :=
  zpow_le_zpow_right₀ (by norm_num) h

theorem log2_le_of_lt {q : ℚ} (hq : 0 < q) {n : ℤ} (h : q < 2 ^ (n + 1)) :
    Int.log 2 q ≤ n := by
  have := (Int.lt_zpow_iff_log_lt (b := 2) (by norm_num) hq).mp h
  omega

theorem le_log2_of_le {q : ℚ} (hq : 0 < q) {n : ℤ} (h : 2 ^ n ≤ q) :
    n ≤ Int.log 2 q :=
  (Int.zpow_le_iff_le_log (by norm_num) hq).mp h

theorem rndPos_factor (p : ℕ) (q : ℚ) :
    q * 2 ^ ((p : ℤ) - 1 - Int.log 2 q) * 2 ^ (Int.log 2 q - ((p : ℤ) - 1)) = q := by
  rw [mul_assoc, ← zpow_add₀ (by norm_num : (2:ℚ) ≠ 0)]
  have h : (p : ℤ) - 1 - Int.log 2 q + (Int.log 2 q - ((p : ℤ) - 1)) = 0 := by omega
  rw [h]
  norm_num

theorem rndPos_err (p : ℕ) {q : ℚ} (hq : 0 < q) :
    |rndPos p q - q| ≤ 2 ^ (Int.log 2 q - p) := by
  set e := Int.log 2 q with he
  set s := (p : ℤ) - 1 - e with hs
  set v := q * 2 ^ s with hv
  have hfac : v * 2 ^ (e - ((p : ℤ) - 1)) = q := rndPos_factor p q
  have hdiff : rndPos p q - q = ((rhe v : ℚ) - v) * 2 ^ (e - ((p : ℤ) - 1)) := by
    rw [rndPos, ← he, ← hs, ← hv, ← hfac]
    ring
  rw [hdiff, abs_mul, abs_of_pos (two_zpow_pos _)]
  have habs : |(rhe v : ℚ) - v| ≤ 1/2 :=
    abs_le.mpr ⟨by linarith [le_rhe v], by linarith [rhe_le v]⟩
  calc |(rhe v : ℚ) - v| * 2 ^ (e - ((p : ℤ) - 1))
      ≤ (1/2) * 2 ^ (e - ((p : ℤ) - 1)) := by
        exact mul_le_mul_of_nonneg_right habs (le_of_lt (two_zpow_pos _))
    _ = 2 ^ (e - p) := by
        rw [show (1/2 : ℚ) = 2 ^ (-1 : ℤ) by norm_num,
          ← zpow_add₀ (by norm_num : (2:ℚ) ≠ 0)]
        congr 1
        omega

theorem rndPos_le_zpow (p : ℕ) {q : ℚ} (hq : 0 < q) :
    rndPos p q ≤ 2 ^ (Int.log 2 q + 1) := by
  set e := Int.log 2 q with he
  set s := (p : ℤ) - 1 - e with hs
  set v := q * 2 ^ s with hv
  have hvlt : v < 2 ^ (p : ℤ) := by
    have h1 : q < 2 ^ (e + 1) := Int.lt_zpow_succ_log_self (by norm_num) q
    have h2 : v < 2 ^ (e + 1) * 2 ^ s :=
      mul_lt_mul_of_pos_right h1 (two_zpow_pos s)
    have h3 : (2:ℚ) ^ (e + 1) * 2 ^ s = 2 ^ (p : ℤ) := by
      rw [← zpow_add₀ (by norm_num : (2:ℚ) ≠ 0)]
      congr 1
      omega
    rw [← h3]; exact h2
  have hint : rhe v ≤ 2 ^ p := by
    have h4 : (rhe v : ℚ) ≤ v + 1/2 := rhe_le v
    have h5 : (rhe v : ℚ) < 2 ^ (p : ℤ) + 1/2 := by linarith
    have h6 : ((2:ℚ) ^ (p : ℤ)) = ((2 ^ p : ℤ) : ℚ) := by
      rw [zpow_natCast]; push_cast; ring
    have h7 : (rhe v : ℚ) < ((2 ^ p : ℤ) : ℚ) + 1 := by
      rw [← h6]; linarith
    have h8 : rhe v < 2 ^ p + 1 := by exact_mod_cast h7
    omega
  have hcast : (rhe v : ℚ) ≤ 2 ^ (p : ℤ) := by
    rw [zpow_natCast]
    exact_mod_cast hint
  calc rndPos p q = (rhe v : ℚ) * 2 ^ (e - ((p : ℤ) - 1)) := by
        rw [rndPos, ← he, ← hs, ← hv]
    _ ≤ 2 ^ (p : ℤ) * 2 ^ (e - ((p : ℤ) - 1)) :=
        mul_le_mul_of_nonneg_right hcast (le_of_lt (two_zpow_pos _))
    _ = 2 ^ (e + 1) := by
        rw [← zpow_add₀ (by norm_num : (2:ℚ) ≠ 0)]
        congr 1
        omega

theorem rndPos_ge_zpow {p : ℕ} {q : ℚ} (hq : 0 < q) (hp : 1 ≤ p) :
    2 ^ (Int.log 2 q) ≤ rndPos p q := by
  set e := Int.log 2 q with he
  set s := (p : ℤ) - 1 - e with hs
  set v := q * 2 ^ s with hv
  have hvge : 2 ^ ((p : ℤ) - 1) ≤ v := by
    have h1 : (2:ℚ) ^ e ≤ q := Int.zpow_log_le_self (by norm_num) hq
    have h2 : (2:ℚ) ^ e * 2 ^ s ≤ v :=
      mul_le_mul_of_nonneg_right h1 (le_of_lt (two_zpow_pos s))
    have h3 : (2:ℚ) ^ e * 2 ^ s = 2 ^ ((p : ℤ) - 1) := by
      rw [← zpow_add₀ (by norm_num : (2:ℚ) ≠ 0)]
      congr 1
      omega
    rw [← h3]; exact h2
  have h6 : ((2:ℚ) ^ ((p : ℤ) - 1)) = ((2 ^ (p - 1) : ℤ) : ℚ) := by
    have : (p : ℤ) - 1 = ((p - 1 : ℕ) : ℤ) := by omega
    rw [this, zpow_natCast]
    push_cast
    ring
  have hint : 2 ^ (p - 1) ≤ rhe v := by
    have h4 : v - 1/2 ≤ (rhe v : ℚ) := le_rhe v
    have h7 : ((2 ^ (p - 1) : ℤ) : ℚ) - 1 < (rhe v : ℚ) := by
      rw [← h6]; linarith
    have h8 : (2 ^ (p - 1) : ℤ) - 1 < rhe v := by exact_mod_cast h7
    omega
  have hcast : ((2:ℚ) ^ ((p : ℤ) - 1)) ≤ (rhe v : ℚ) := by
    rw [h6]
    exact_mod_cast hint
  calc (2:ℚ) ^ e = 2 ^ ((p : ℤ) - 1) * 2 ^ (e - ((p : ℤ) - 1)) := by
        rw [← zpow_add₀ (by norm_num : (2:ℚ) ≠ 0)]
        congr 1
        omega
    _ ≤ (rhe v : ℚ) * 2 ^ (e - ((p : ℤ) - 1)) :=
        mul_le_mul_of_nonneg_right hcast (le_of_lt (two_zpow_pos _))
    _ = rndPos p q := by
        rw [rndPos, ← he, ← hs, ← hv]

theorem rndPos_nonneg (p : ℕ) {q : ℚ} (hq : 0 < q) : 0 ≤ rndPos p q := by
  have h1 : 0 ≤ ⌊q * 2 ^ ((p : ℤ) - 1 - Int.log 2 q)⌋ := by
    apply Int.floor_nonneg.mpr
    positivity
  have h2 : (0:ℤ) ≤ rhe (q * 2 ^ ((p : ℤ) - 1 - Int.log 2 q)) :=
    le_trans h1 (floor_le_rhe _)
  rw [rndPos]
  have := two_zpow_pos (Int.log 2 q - ((p : ℤ) - 1))
  have h3 : (0:ℚ) ≤ (rhe (q * 2 ^ ((p : ℤ) - 1 - Int.log 2 q)) : ℚ) := by
    exact_mod_cast h2
  positivity

theorem rnd_nonneg (p : ℕ) {q : ℚ} (hq : 0 ≤ q) : 0 ≤ rnd p q := by
  rcases lt_or_eq_of_le hq with h | h
  · rw [rnd_of_pos p h]; exact rndPos_nonneg p h
  · rw [← h, rnd_zero]

theorem rnd_pos {p : ℕ} {q : ℚ} (hq : 0 < q) (hp : 1 ≤ p) : 0 < rnd p q := by
  rw [rnd_of_pos p hq]
  exact lt_of_lt_of_le (two_zpow_pos _) (rndPos_ge_zpow hq hp)

theorem rndPos_eq_self {p : ℕ} {q : ℚ} (hq : 0 < q) (h : FpRep p q) :
    rndPos p q = q := by
  obtain ⟨m, t, hm, hqe⟩ := h
  have hm0 : 0 < m := by
    by_contra hc
    push_neg at hc
    have : (m : ℚ) * 2 ^ t ≤ 0 := by
      apply mul_nonpos_of_nonpos_of_nonneg
      · exact_mod_cast hc
      · exact le_of_lt (two_zpow_pos t)
    rw [← hqe] at this
    linarith
  set e := Int.log 2 q with he
  have hmq : (m : ℚ) < 2 ^ (p : ℤ) := by
    have h1 : m < ((2 ^ p : ℕ) : ℤ) := by
      calc m ≤ |m| := le_abs_self m
        _ = (m.natAbs : ℤ) := by rw [Int.abs_eq_natAbs]
        _ < ((2 ^ p : ℕ) : ℤ) := by exact_mod_cast hm
    rw [zpow_natCast]
    exact_mod_cast h1
  have hqlt : q < 2 ^ ((p : ℤ) + t - 1 + 1) := by
    rw [hqe]
    have h2 : (2:ℚ) ^ ((p : ℤ) + t - 1 + 1) = 2 ^ (p:ℤ) * 2 ^ t := by
      rw [← zpow_add₀ (by norm_num : (2:ℚ) ≠ 0)]
      congr 1
      omega
    rw [h2]
    exact mul_lt_mul_of_pos_right hmq (two_zpow_pos t)
  have hele : e ≤ (p : ℤ) + t - 1 := log2_le_of_lt hq hqlt
  set s := (p : ℤ) - 1 - e with hs
  have hts : 0 ≤ t + s := by omega
  have hvint : q * 2 ^ s = ((m * 2 ^ (t + s).toNat : ℤ) : ℚ) := by
    have h3 : t + s = ((t + s).toNat : ℤ) := by omega
    rw [hqe, mul_assoc, ← zpow_add₀ (by norm_num : (2:ℚ) ≠ 0), h3]
    push_cast
    norm_cast
  rw [rndPos, ← he, ← hs, hvint, rhe_intCast]
  rw [← hvint]
  exact rndPos_factor p q

theorem rnd_eq_self {p : ℕ} {q : ℚ} (h : FpRep p q) : rnd p q = q := by
  rcases lt_trichotomy q 0 with hq | hq | hq
  · have hrep : FpRep p (-q) := by
      obtain ⟨m, t, hm, hqe⟩ := h
      exact ⟨-m, t, by simpa using hm, by rw [hqe]; push_cast; ring⟩
    unfold rnd
    rw [if_neg (by linarith), if_pos hq, rndPos_eq_self (by linarith) hrep]
    ring
  · rw [hq, rnd_zero]
  · rw [rnd_of_pos p hq]
    exact rndPos_eq_self hq h

theorem rnd_mono {p : ℕ} (hp : 1 ≤ p) {x y : ℚ} (h0 : 0 ≤ x) (hxy : x ≤ y) :
    rnd p x ≤ rnd p y := by
  rcases lt_or_eq_of_le h0 with hx | hx
  · have hy : 0 < y := lt_of_lt_of_le hx hxy
    rw [rnd_of_pos p hx, rnd_of_pos p hy]
    have hlog : Int.log 2 x ≤ Int.log 2 y := Int.log_mono_right hx hxy
    rcases lt_or_eq_of_le hlog with hlt | heq
    · calc rndPos p x ≤ 2 ^ (Int.log 2 x + 1) := rndPos_le_zpow p hx
        _ ≤ 2 ^ (Int.log 2 y) := two_zpow_mono (by omega)
        _ ≤ rndPos p y := rndPos_ge_zpow hy hp
    · unfold rndPos
      rw [← heq]
      have hsc : x * 2 ^ ((p:ℤ) - 1 - Int.log 2 x) ≤ y * 2 ^ ((p:ℤ) - 1 - Int.log 2 x) :=
        mul_le_mul_of_nonneg_right hxy (le_of_lt (two_zpow_pos _))
      have hrhe : rhe (x * 2 ^ ((p:ℤ) - 1 - Int.log 2 x)) ≤
          rhe (y * 2 ^ ((p:ℤ) - 1 - Int.log 2 x)) := rhe_mono hsc
      apply mul_le_mul_of_nonneg_right _ (le_of_lt (two_zpow_pos _))
      exact_mod_cast hrhe
  · rw [← hx, rnd_zero]
    exact rnd_nonneg p (le_trans h0 hxy)

/-! ## The float value model

A float value is `NaN`, `+∞`, `-∞`, or a finite rational.  Arithmetic rounds
exact rational results with `rnd p`. -/

/-- A value of an IEEE binary floating-point type: a special value or a finite
rational (the exact value the bit pattern denotes). -/
inductive Fl where
  | nan : Fl
  | inf : Fl
  | ninf : Fl
  | fin : ℚ → Fl
deriving DecidableEq

/-- Rust `PartialOrd` `<` on floats: any comparison with NaN is false. -/
def flLt : Fl → Fl → Bool
  | .nan, _ => false
  | _, .nan => false
  | .fin x, .fin y => decide (x < y)
  | .ninf, .ninf => false
  | .ninf, _ => true
  | _, .ninf => false
  | .inf, _ => false
  | _, .inf => true

/-- Rust `PartialOrd` `>` on floats. -/
def flGt (a b : Fl) : Bool := flLt b a

/-- Rust `PartialOrd` `<=` on floats: false whenever NaN is involved. -/
def flLe : Fl → Fl → Bool
  | .nan, _ => false
  | _, .nan => false
  | .fin x, .fin y => decide (x ≤ y)
  | .ninf, _ => true
  | _, .ninf => false
  | _, .inf => true
  | .inf, _ => false

/-- Rust `PartialOrd` `>=` on floats. -/
def flGe (a b : Fl) : Bool := flLe b a

/-- Rust `num_traits::clamp(input, min, max)`:
`if input < min { min } else if input > max { max } else { input }`.
In particular a NaN input is returned unchanged (both comparisons are
false). -/
def clampF (input min max : Fl) : Fl :=
  if flLt input min then min else if flGt input max then max else input

/-- IEEE float multiplication in precision `p` (exact product, correctly
rounded; special values propagate as in IEEE 754). -/
def flMul (p : ℕ) : Fl → Fl → Fl
  | .nan, _ => .nan
  | _, .nan => .nan
  | .fin x, .fin y => .fin (rnd p (x * y))
  | .inf, .inf => .inf
  | .inf, .ninf => .ninf
  | .ninf, .inf => .ninf
  | .ninf, .ninf => .inf
  | .inf, .fin y => if y = 0 then .nan else if 0 < y then .inf else .ninf
  | .fin x, .inf => if x = 0 then .nan else if 0 < x then .inf else .ninf
  | .ninf, .fin y => if y = 0 then .nan else if 0 < y then .ninf else .inf
  | .fin x, .ninf => if x = 0 then .nan else if 0 < x then .ninf else .inf

/-- IEEE float division in precision `p` (exact quotient, correctly rounded;
the embedded code only ever divides finite values by a positive finite
constant). -/
def flDiv (p : ℕ) : Fl → Fl → Fl
  | .nan, _ => .nan
  | _, .nan => .nan
  | .fin x, .fin y =>
      if y = 0 then (if x = 0 then .nan else if 0 < x then .inf else .ninf)
      else .fin (rnd p (x / y))
  | .inf, .inf => .nan
  | .inf, .ninf => .nan
  | .ninf, .inf => .nan
  | .ninf, .ninf => .nan
  | .inf, .fin y => if 0 ≤ y then .inf else .ninf
  | .ninf, .fin y => if 0 ≤ y then .ninf else .inf
  | .fin _, .inf => .fin 0
  | .fin _, .ninf => .fin 0

/-- Rust `u32::MAX`. -/
def u32Max : ℕ := 4294967295

/-- Truncation toward zero of a rational (the integer part used by Rust
float-to-integer `as` casts and `ToPrimitive`). -/
def truncQ (q : ℚ) : ℤ := if 0 ≤ q then ⌊q⌋ else -⌊-q⌋

/-- Rust `num_traits` `ToPrimitive::to_u32` for `f64` (`cast.rs`,
`impl_to_primitive_float_to_unsigned_int`, branch
`size_of::<f64>() > size_of::<u32>()`): the value must lie in the exclusive
range `(-1, u32::MAX as f64 + 1.0)` — both bounds exact in `f64` — and is then
truncated by an in-range `as` cast.  NaN and infinities fail the
comparisons. -/
def toU32f64 : Fl → Option ℕ
  | .fin q => if -1 < q ∧ q < 4294967296 then some (truncQ q).toNat else none
  | _ => none

/-- Rust `num_traits` `ToPrimitive::to_u32` for `f32` (same macro, equal-size
branch): the bound is `u32::MAX as f32`, which rounds to `2^32`, the
comparison is `<=`, and the `as` cast saturates (Rust float-to-int casts
saturate), so `2^32` maps to `u32::MAX`. -/
def toU32f32 : Fl → Option ℕ
  | .fin q => if -1 < q ∧ q ≤ 4294967296 then some (min (truncQ q).toNat u32Max) else none
  | _ => none

/-- A floating-point format as used by the generic code: a precision and the
`to_u32` conversion supplied by `num_traits` for that float type. -/
structure Fmt where
  p : ℕ
  toU32 : Fl → Option ℕ

/-- The `f64` instantiation of the generic float code. -/
def f64fmt : Fmt := ⟨53, toU32f64⟩

/-- The `f32` instantiation of the generic float code. -/
def f32fmt : Fmt := ⟨24, toU32f32⟩

/-- Rust `num_traits` `NumCast::from` of a `u32` into a float
(`ToPrimitive::to_f32` / `to_f64`): the rounding `as` cast, always
successful — the `Option` it returns in Rust is always `Some`. -/
def Fmt.ofU32 (fmt : Fmt) (n : ℕ) : Fl := .fin (rnd fmt.p (n : ℚ))

/-- Rust `as u32` cast from a float: truncation with saturation; NaN casts
to 0 (used by the non-generic `TryFrom` impls). -/
def satCastU32 : Fl → ℕ
  | .fin q => if q < 0 then 0 else min (truncQ q).toNat u32Max
  | .nan => 0
  | .inf => u32Max
  | .ninf => 0

/-! ## `Primant` (the spec's SaturatingFraction), from `src/primant.rs` -/

/-- Rust `pub struct Primant(u32);` — a newtype over one 32-bit unsigned
integer. -/
structure Primant where
  raw : ℕ
deriving DecidableEq

/-- Rust `Primant::from_raw(value: u32) -> Self { Primant(value) }` -/
def Primant.from_raw (value : ℕ) : Primant := ⟨value⟩

/-- Rust `Primant::to_raw(self) -> u32 { self.0 }` -/
def Primant.to_raw (self : Primant) : ℕ := self.raw

/-- Rust `Primant::from_float<T: FloatCore>`: asserts
`value >= T::zero() && value <= T::one()` (panic otherwise), then
`(value * T::from(u32::MAX).unwrap()).to_u32().unwrap()`.
`none` models a panic (failed assert or failed `to_u32` unwrap). -/
def Primant.from_float (fmt : Fmt) (value : Fl) : Option Primant :=
  if flGe value (.fin 0) && flLe value (.fin 1) then
    (fmt.toU32 (flMul fmt.p value (fmt.ofU32 u32Max))).map Primant.mk
  else none

/-- Rust `Primant::try_from_float<T: FloatCore>`: returns `None` when
`value < T::zero() || value > T::one()`, otherwise
`(value * T::from(u32::MAX)?).to_u32()?`.  (The `?` on `T::from` never
fires: the cast always succeeds.) -/
def Primant.try_from_float (fmt : Fmt) (value : Fl) : Option Primant :=
  if flLt value (.fin 0) || flGt value (.fin 1) then none
  else (fmt.toU32 (flMul fmt.p value (fmt.ofU32 u32Max))).map Primant.mk

/-- Rust `Primant::from_float_saturating<T: FloatCore>`:
`(value.clamp(T::zero(), T::one()) * T::from(u32::MAX).unwrap()).to_u32().unwrap()`.
`none` models the `to_u32().unwrap()` panic. -/
def Primant.from_float_saturating (fmt : Fmt) (value : Fl) : Option Primant :=
  (fmt.toU32 (flMul fmt.p (clampF value (.fin 0) (.fin 1)) (fmt.ofU32 u32Max))).map Primant.mk

/-- Rust `Primant::into_float<T: FloatCore>`:
`T::from(self.0).unwrap() / T::from(u32::MAX).unwrap()` (both casts always
succeed). -/
def Primant.into_float (fmt : Fmt) (self : Primant) : Fl :=
  flDiv fmt.p (fmt.ofU32 self.raw) (fmt.ofU32 u32Max)

/-- Rust `impl From<Primant> for f64`: `value.0 as f64 / u32::MAX as f64`. -/
def Primant.to_f64 (self : Primant) : Fl :=
  flDiv 53 (.fin (rnd 53 (self.raw : ℚ))) (.fin (rnd 53 (u32Max : ℚ)))

/-- Rust `impl From<Primant> for f32`: `value.0 as f32 / u32::MAX as f32`. -/
def Primant.to_f32 (self : Primant) : Fl :=
  flDiv 24 (.fin (rnd 24 (self.raw : ℚ))) (.fin (rnd 24 (u32Max : ℚ)))

/-- Rust `impl TryFrom<f64> for Primant`: `Err(())` (here `none`) unless
`(0.0..=1.0).contains(&value)`, else `Ok(Primant((value * u32::MAX as f64) as u32))`
— note the saturating `as` cast. -/
def Primant.try_from_f64 (value : Fl) : Option Primant :=
  if flGe value (.fin 0) && flLe value (.fin 1) then
    some ⟨satCastU32 (flMul 53 value (.fin (rnd 53 (u32Max : ℚ))))⟩
  else none

/-- Rust `impl TryFrom<f32> for Primant`, as for `f64` but in single precision. -/
def Primant.try_from_f32 (value : Fl) : Option Primant :=
  if flGe value (.fin 0) && flLe value (.fin 1) then
    some ⟨satCastU32 (flMul 24 value (.fin (rnd 24 (u32Max : ℚ))))⟩
  else none

/-- Rust `u32::unchecked_mul` as reached from `from_ratio_unchecked`: `none`
models undefined behavior (an overflowing product). -/
def uncheckedMul (a b : ℕ) : Option ℕ :=
  if a * b ≤ u32Max then some (a * b) else none

/-- Rust `unsafe Primant::from_ratio_unchecked(numerator, denominator)`:
`Primant(numerator.unchecked_mul(u32::MAX / denominator))`.  `u32` division
by zero panics; overflow of the unchecked multiplication is undefined
behavior; both are modelled by `none`. -/
def Primant.from_ratio_unchecked (numerator denominator : ℕ) : Option Primant :=
  if denominator = 0 then none
  else (uncheckedMul numerator (u32Max / denominator)).map Primant.mk

/-- Rust `Primant::from_ratio`: asserts `denominator != 0` and
`numerator <= denominator` (panic otherwise), then calls
`from_ratio_unchecked`. -/
def Primant.from_ratio (numerator denominator : ℕ) : Option Primant :=
  if denominator = 0 then none
  else if denominator < numerator then none
  else Primant.from_ratio_unchecked numerator denominator

/-- Rust `Primant::try_from_ratio`: returns `None` when `denominator == 0 ||
numerator > denominator`, otherwise `Some(from_ratio_unchecked(..))`. -/
def Primant.try_from_ratio (numerator denominator : ℕ) : Option Primant :=
  if denominator = 0 ∨ denominator < numerator then none
  else Primant.from_ratio_unchecked numerator denominator

/-! ## `Phase` (the spec's CyclicFraction), from `src/phase.rs` -/

/-- Rust `pub struct Phase(u32);` — a newtype over one 32-bit unsigned integer. -/
structure Phase where
  raw : ℕ
deriving DecidableEq

/-- Rust `Phase::from_raw(value: u32) -> Self { Phase(value) }` -/
def Phase.from_raw (value : ℕ) : Phase := ⟨value⟩

/-- Rust `Phase::to_raw(self) -> u32 { self.0 }` -/
def Phase.to_raw (self : Phase) : ℕ := self.raw

/-- Rust `Phase::from_float<T: FloatCore>`: asserts
`value >= T::zero() && value < T::one()` (panic otherwise), then
`(value * T::from(u32::MAX).unwrap()).to_u32().unwrap()`. -/
def Phase.from_float (fmt : Fmt) (value : Fl) : Option Phase :=
  if flGe value (.fin 0) && flLt value (.fin 1) then
    (fmt.toU32 (flMul fmt.p value (fmt.ofU32 u32Max))).map Phase.mk
  else none

/-- Rust `Phase::try_from_float<T: FloatCore>`: returns `None` when
`value < T::zero() || value >= T::one()`, otherwise
`(value * T::from(u32::MAX)?).to_u32()?`. -/
def Phase.try_from_float (fmt : Fmt) (value : Fl) : Option Phase :=
  if flLt value (.fin 0) || flGe value (.fin 1) then none
  else (fmt.toU32 (flMul fmt.p value (fmt.ofU32 u32Max))).map Phase.mk

/-- Rust `Phase::from_float_saturating<T: FloatCore>`: clamp to
`[T::zero(), T::one()]`, multiply by the cast of `u32::MAX`, `to_u32`,
unwrap. -/
def Phase.from_float_saturating (fmt : Fmt) (value : Fl) : Option Phase :=
  (fmt.toU32 (flMul fmt.p (clampF value (.fin 0) (.fin 1)) (fmt.ofU32 u32Max))).map Phase.mk

/-- Rust `impl From<Phase> for f64`: `value.0 as f64 / u32::MAX as f64`. -/
def Phase.to_f64 (self : Phase) : Fl :=
  flDiv 53 (.fin (rnd 53 (self.raw : ℚ))) (.fin (rnd 53 (u32Max : ℚ)))

/-- Rust `impl From<Phase> for f32`: `value.0 as f32 / u32::MAX as f32`. -/
def Phase.to_f32 (self : Phase) : Fl :=
  flDiv 24 (.fin (rnd 24 (self.raw : ℚ))) (.fin (rnd 24 (u32Max : ℚ)))

/-- Rust `impl TryFrom<f64> for Phase`: `Err(())` unless
`(0.0..1.0).contains(&value)` (half-open), else
`Ok(Phase((value * u32::MAX as f64) as u32))`. -/
def Phase.try_from_f64 (value : Fl) : Option Phase :=
  if flGe value (.fin 0) && flLt value (.fin 1) then
    some ⟨satCastU32 (flMul 53 value (.fin (rnd 53 (u32Max : ℚ))))⟩
  else none

/-- Rust `impl TryFrom<f32> for Phase`, as for `f64` but in single precision. -/
def Phase.try_from_f32 (value : Fl) : Option Phase :=
  if flGe value (.fin 0) && flLt value (.fin 1) then
    some ⟨satCastU32 (flMul 24 value (.fin (rnd 24 (u32Max : ℚ))))⟩
  else none

/-! ## Evaluation helpers -/

theorem int_log2_eq {q : ℚ} (n : ℤ) (hq : 0 < q) (h1 : 2 ^ n ≤ q)
    (h2 : q < 2 ^ (n + 1)) : Int.log 2 q = n :=
  le_antisymm (log2_le_of_lt hq h2) (le_log2_of_le hq h1)

theorem rhe_eq_of_lt_half {x : ℚ} {n : ℤ} (hn : ⌊x⌋ = n) (h : x - n < 1/2) :
    rhe x = n := by
  unfold rhe
  rw [hn, if_pos h]

theorem rhe_eq_of_half_lt {x : ℚ} {n : ℤ} (hn : ⌊x⌋ = n) (h : 1/2 < x - n) :
    rhe x = n + 1 := by
  unfold rhe
  rw [hn, if_neg (by linarith), if_pos h]

theorem fpRep_nat (p : ℕ) (n : ℕ) (h : n < 2 ^ p) : FpRep p (n : ℚ) :=
  ⟨n, 0, by simpa using h, by norm_num⟩

theorem rnd_natCast (p : ℕ) (n : ℕ) (h : n < 2 ^ p) : rnd p (n : ℚ) = n :=
  rnd_eq_self (fpRep_nat p n h)

theorem rnd53_u32Max : rnd 53 ((u32Max : ℕ) : ℚ) = ((u32Max : ℕ) : ℚ) := by
  apply rnd_natCast
  norm_num [u32Max]

theorem u32Max_cast : ((u32Max : ℕ) : ℚ) = 4294967295 := by norm_num [u32Max]

theorem rnd53_one : rnd 53 (1 : ℚ) = 1 :=
  rnd_eq_self ⟨1, 0, by norm_num, by norm_num⟩

theorem rnd24_one : rnd 24 (1 : ℚ) = 1 :=
  rnd_eq_self ⟨1, 0, by norm_num, by norm_num⟩

theorem rnd24_pow32 : rnd 24 (4294967296 : ℚ) = 4294967296 :=
  rnd_eq_self ⟨1, 32, by norm_num, by norm_num⟩

theorem rnd53_pow32 : rnd 53 (4294967296 : ℚ) = 4294967296 :=
  rnd_eq_self ⟨1, 32, by norm_num, by norm_num⟩

/-- Rust `u32::MAX as f32` rounds up to `2^32`: `u32::MAX` needs 32 significant
bits, more than the 24 of binary32. -/
theorem rnd24_u32Max : rnd 24 ((u32Max : ℕ) : ℚ) = 4294967296 := by
  rw [u32Max_cast, rnd_of_pos 24 (by norm_num)]
  have hlog : Int.log 2 (4294967295 : ℚ) = 31 :=
    int_log2_eq 31 (by norm_num) (by norm_num) (by norm_num)
  unfold rndPos
  rw [hlog]
  have he1 : ((24 : ℕ) : ℤ) - 1 - 31 = -8 := by norm_num
  have he2 : (31 : ℤ) - (((24 : ℕ) : ℤ) - 1) = 8 := by norm_num
  rw [he1, he2]
  have harg : (4294967295 : ℚ) * 2 ^ (-8 : ℤ) = 4294967295 / 256 := by
    norm_num
  rw [harg]
  have hfl : ⌊(4294967295 / 256 : ℚ)⌋ = 16777215 := by
    rw [Int.floor_eq_iff] <;> norm_num
  rw [rhe_eq_of_half_lt hfl (by norm_num)]
  norm_num

theorem truncQ_natCast (n : ℕ) : truncQ ((n : ℕ) : ℚ) = n := by
  unfold truncQ
  rw [if_pos (by positivity)]
  simp

theorem truncQ_ofNat (q : ℚ) (n : ℤ) (h0 : 0 ≤ q) (hfl : ⌊q⌋ = n) :
    truncQ q = n := by
  unfold truncQ
  rw [if_pos h0, hfl]

theorem toU32f64_fin (q : ℚ) : toU32f64 (.fin q) =
    if -1 < q ∧ q < 4294967296 then some (truncQ q).toNat else none := rfl

theorem toU32f32_fin (q : ℚ) : toU32f32 (.fin q) =
    if -1 < q ∧ q ≤ 4294967296 then some (min (truncQ q).toNat u32Max) else none := rfl

theorem flMul_fin (p : ℕ) (x y : ℚ) :
    flMul p (.fin x) (.fin y) = .fin (rnd p (x * y)) := rfl

theorem flDiv_fin (p : ℕ) (x y : ℚ) (hy : y ≠ 0) :
    flDiv p (.fin x) (.fin y) = .fin (rnd p (x / y)) := by
  simp [flDiv, hy]

theorem f64fmt_p : f64fmt.p = 53 := rfl

theorem f64fmt_toU32 : f64fmt.toU32 = toU32f64 := rfl

theorem f32fmt_p : f32fmt.p = 24 := rfl

theorem f32fmt_toU32 : f32fmt.toU32 = toU32f32 := rfl

theorem ofU32_64 (n : ℕ) : f64fmt.ofU32 n = .fin (rnd 53 (n : ℚ)) := rfl

theorem ofU32_32 (n : ℕ) : f32fmt.ofU32 n = .fin (rnd 24 (n : ℚ)) := rfl

theorem u32Max_q_ne_zero : ((u32Max : ℕ) : ℚ) ≠ 0 := by
  rw [u32Max_cast]; norm_num

/-- Rust `value.0 as f64 / u32::MAX as f64` at raw code `u32::MAX` is exactly
`1.0`. -/
theorem divMaxMax53 :
    flDiv 53 (.fin (rnd 53 ((u32Max : ℕ) : ℚ))) (.fin (rnd 53 ((u32Max : ℕ) : ℚ))) = .fin 1 := by
  rw [rnd53_u32Max, flDiv_fin 53 _ _ u32Max_q_ne_zero, div_self u32Max_q_ne_zero, rnd53_one]

/-- Rust `value.0 as f32 / u32::MAX as f32` at raw code `u32::MAX` is exactly
`1.0` (both casts round to `2^32`). -/
theorem divMaxMax24 :
    flDiv 24 (.fin (rnd 24 ((u32Max : ℕ) : ℚ))) (.fin (rnd 24 ((u32Max : ℕ) : ℚ))) = .fin 1 := by
  rw [rnd24_u32Max, flDiv_fin 24 _ _ (by norm_num), div_self (by norm_num), rnd24_one]

/-! ## C1: raw conversions are a total bit-preserving bijection -/

/-- C1: for both `Primant` and `Phase`, `from_raw` and `to_raw` are total
(they are plain functions of the embedding, with no panic/`Option`) and form
an exact bijection: `to_raw (from_raw c) = c` for every `u32` code `c`, and
`from_raw (to_raw x) = x` for every value `x`. -/
theorem c1_raw_roundtrip :
    (∀ c : ℕ, c < 2 ^ 32 →
      Primant.to_raw (Primant.from_raw c) = c ∧ Phase.to_raw (Phase.from_raw c) = c)
    ∧ (∀ x : Primant, Primant.from_raw (Primant.to_raw x) = x)
    ∧ (∀ y : Phase, Phase.from_raw (Phase.to_raw y) = y) := by
  refine ⟨fun c _ => ⟨rfl, rfl⟩, fun x => rfl, fun y => rfl⟩

/-- Witness for C1 at concrete inputs. -/
theorem c1_witness :
    Primant.to_raw (Primant.from_raw 3141592653) = 3141592653
    ∧ Phase.to_raw (Phase.from_raw 3141592653) = 3141592653
    ∧ Primant.from_raw (Primant.to_raw ⟨7⟩) = (⟨7⟩ : Primant) := by
  have h := c1_raw_roundtrip
  exact ⟨(h.1 3141592653 (by norm_num)).1, (h.1 3141592653 (by norm_num)).2,
    h.2.1 ⟨7⟩⟩

/-! ## C5: SaturatingFraction boundary inclusion -/

/-- C5: `Primant::from_float(1.0)` succeeds — it does not abort — and
produces the raw code `u32::MAX`, in both `f64` and `f32`; and converting
`Primant::from_raw(u32::MAX)` back to a float (via `into_float` or the
`From` impls) yields exactly `1.0`. -/
theorem c5_primant_boundary_inclusion :
    Primant.from_float f64fmt (.fin 1) = some ⟨u32Max⟩
    ∧ Primant.from_float f32fmt (.fin 1) = some ⟨u32Max⟩
    ∧ Primant.into_float f64fmt (Primant.from_raw u32Max) = .fin 1
    ∧ Primant.into_float f32fmt (Primant.from_raw u32Max) = .fin 1
    ∧ Primant.to_f64 (Primant.from_raw u32Max) = .fin 1
    ∧ Primant.to_f32 (Primant.from_raw u32Max) = .fin 1 := by
  have hg64 : Primant.from_float f64fmt (.fin 1) = some ⟨u32Max⟩ := by
    unfold Primant.from_float
    rw [if_pos (by simp [flGe, flLt, flLe, flGt])]
    rw [f64fmt_toU32, f64fmt_p, ofU32_64, rnd53_u32Max, flMul_fin, one_mul, rnd53_u32Max,
      toU32f64_fin]
    rw [if_pos (by rw [u32Max_cast]; norm_num)]
    rw [truncQ_natCast]
    simp
  have hg32 : Primant.from_float f32fmt (.fin 1) = some ⟨u32Max⟩ := by
    unfold Primant.from_float
    rw [if_pos (by simp [flGe, flLt, flLe, flGt])]
    rw [f32fmt_toU32, f32fmt_p, ofU32_32, rnd24_u32Max, flMul_fin, one_mul, rnd24_pow32,
      toU32f32_fin]
    rw [if_pos (by norm_num)]
    rw [truncQ_ofNat _ 4294967296 (by norm_num) (by rw [Int.floor_eq_iff] <;> norm_num)]
    simp [u32Max]
  have hi64 : Primant.into_float f64fmt (Primant.from_raw u32Max) = .fin 1 := by
    unfold Primant.into_float Primant.from_raw Fmt.ofU32
    exact divMaxMax53
  have hi32 : Primant.into_float f32fmt (Primant.from_raw u32Max) = .fin 1 := by
    unfold Primant.into_float Primant.from_raw Fmt.ofU32
    exact divMaxMax24
  have hf64 : Primant.to_f64 (Primant.from_raw u32Max) = .fin 1 := by
    unfold Primant.to_f64 Primant.from_raw
    exact divMaxMax53
  have hf32 : Primant.to_f32 (Primant.from_raw u32Max) = .fin 1 := by
    unfold Primant.to_f32 Primant.from_raw
    exact divMaxMax24
  exact ⟨hg64, hg32, hi64, hi32, hf64, hf32⟩

/-! ## C2: CyclicFraction boundary exclusion (code bug at the top code) -/

/-- C2: for `Phase`, the strict conversion `from_float(1.0)` aborts and the
checked conversions at `1.0` return `None`/`Err` — but the float obtained
from the maximum raw code is NOT strictly below `1.0`: both
`f64::from(Phase::from_raw(u32::MAX))` and the `f32` conversion evaluate to
exactly `1.0` (the implementation divides by `u32::MAX` itself, contradicting
the claim and the type's own doc comment "the maximum value represents
`0.9…`"). -/
theorem c2_phase_boundary :
    Phase.from_float f64fmt (.fin 1) = none
    ∧ Phase.from_float f32fmt (.fin 1) = none
    ∧ Phase.try_from_float f64fmt (.fin 1) = none
    ∧ Phase.try_from_float f32fmt (.fin 1) = none
    ∧ Phase.try_from_f64 (.fin 1) = none
    ∧ Phase.try_from_f32 (.fin 1) = none
    ∧ Phase.to_f64 (Phase.from_raw u32Max) = .fin 1
    ∧ Phase.to_f32 (Phase.from_raw u32Max) = .fin 1 := by
  refine ⟨?_, ?_, ?_, ?_, ?_, ?_, ?_, ?_⟩
  · unfold Phase.from_float
    rw [if_neg (by simp [flGe, flLt, flLe, flGt])]
  · unfold Phase.from_float
    rw [if_neg (by simp [flGe, flLt, flLe, flGt])]
  · unfold Phase.try_from_float
    rw [if_pos (by simp [flGe, flLt, flLe, flGt])]
  · unfold Phase.try_from_float
    rw [if_pos (by simp [flGe, flLt, flLe, flGt])]
  · unfold Phase.try_from_f64
    rw [if_neg (by simp [flGe, flLt, flLe, flGt])]
  · unfold Phase.try_from_f32
    rw [if_neg (by simp [flGe, flLt, flLe, flGt])]
  · unfold Phase.to_f64 Phase.from_raw
    exact divMaxMax53
  · unfold Phase.to_f32 Phase.from_raw
    exact divMaxMax24

/-! ## C4 and C10: integer ratio constructor -/

/-- Under the documented preconditions the product computed by
`from_ratio_unchecked` never exceeds `u32::MAX`. -/
theorem ratio_no_overflow (n d : ℕ) (hnd : n ≤ d) :
    n * (u32Max / d) ≤ u32Max :=
  calc n * (u32Max / d) ≤ d * (u32Max / d) := Nat.mul_le_mul_right _ hnd
    _ = u32Max / d * d := Nat.mul_comm _ _
    _ ≤ u32Max := Nat.div_mul_le_self u32Max d

/-- C4: for `d ≠ 0` and `n ≤ d`, `Primant::from_ratio(n, d)` succeeds and
produces the raw code `n * (u32::MAX / d)` (integer floor division); the
represented value `raw / MAXCODE` equals `n / d` exactly when `d` divides
`MAXCODE`, and in general differs from `n / d` by at most
`(d - 1) / MAXCODE`. -/
theorem c4_from_ratio_approximation (n d : ℕ) (hd : d ≠ 0) (hnd : n ≤ d) :
    Primant.from_ratio n d = some ⟨n * (u32Max / d)⟩
    ∧ (d ∣ u32Max → ((n * (u32Max / d) : ℕ) : ℚ) / ((u32Max : ℕ) : ℚ) = (n : ℚ) / (d : ℚ))
    ∧ |((n * (u32Max / d) : ℕ) : ℚ) / ((u32Max : ℕ) : ℚ) - (n : ℚ) / (d : ℚ)|
        ≤ ((d : ℚ) - 1) / ((u32Max : ℕ) : ℚ) := by
  have hQle : n * (u32Max / d) ≤ u32Max := ratio_no_overflow n d hnd
  have hsome : Primant.from_ratio n d = some ⟨n * (u32Max / d)⟩ := by
    unfold Primant.from_ratio Primant.from_ratio_unchecked uncheckedMul
    rw [if_neg hd, if_neg (by omega), if_neg hd, if_pos hQle]
    rfl
  have hd0 : ((d : ℕ) : ℚ) ≠ 0 := by exact_mod_cast hd
  have hdpos : (0 : ℚ) < d := by
    have : 0 < d := Nat.pos_of_ne_zero hd
    exact_mod_cast this
  have hM0 : ((u32Max : ℕ) : ℚ) ≠ 0 := u32Max_q_ne_zero
  have hMpos : (0 : ℚ) < ((u32Max : ℕ) : ℚ) := by rw [u32Max_cast]; norm_num
  have hMq : ((u32Max : ℕ) : ℚ) = (d : ℚ) * ((u32Max / d : ℕ) : ℚ) + ((u32Max % d : ℕ) : ℚ) := by
    exact_mod_cast (Nat.div_add_mod u32Max d).symm
  have hcastprod : ((n * (u32Max / d) : ℕ) : ℚ) = (n : ℚ) * ((u32Max / d : ℕ) : ℚ) := by
    push_cast
    ring
  have hQq : ((u32Max / d : ℕ) : ℚ) = (((u32Max : ℕ) : ℚ) - ((u32Max % d : ℕ) : ℚ)) / (d : ℚ) := by
    rw [eq_div_iff hd0]
    linarith [hMq]
  have hexact : d ∣ u32Max →
      ((n * (u32Max / d) : ℕ) : ℚ) / ((u32Max : ℕ) : ℚ) = (n : ℚ) / (d : ℚ) := by
    intro hdvd
    have hR : u32Max % d = 0 := Nat.mod_eq_zero_of_dvd hdvd
    rw [hcastprod, hQq, hR]
    push_cast
    field_simp
    ring
  have hdiff : ((n * (u32Max / d) : ℕ) : ℚ) / ((u32Max : ℕ) : ℚ) - (n : ℚ) / (d : ℚ)
      = -((n : ℚ) * ((u32Max % d : ℕ) : ℚ) / ((d : ℚ) * ((u32Max : ℕ) : ℚ))) := by
    rw [hcastprod, hQq]
    field_simp
    ring
  have hRle : ((u32Max % d : ℕ) : ℚ) ≤ (d : ℚ) - 1 := by
    have h1 : u32Max % d < d := Nat.mod_lt _ (Nat.pos_of_ne_zero hd)
    have h2 : (u32Max % d : ℕ) + 1 ≤ d := h1
    have h3 : ((u32Max % d : ℕ) : ℚ) + 1 ≤ (d : ℚ) := by exact_mod_cast h2
    linarith
  have hRnn : (0 : ℚ) ≤ ((u32Max % d : ℕ) : ℚ) := by positivity
  have hnnn : (0 : ℚ) ≤ (n : ℚ) := by positivity
  have hnle : (n : ℚ) ≤ (d : ℚ) := by exact_mod_cast hnd
  have hbound : |((n * (u32Max / d) : ℕ) : ℚ) / ((u32Max : ℕ) : ℚ) - (n : ℚ) / (d : ℚ)|
      ≤ ((d : ℚ) - 1) / ((u32Max : ℕ) : ℚ) := by
    rw [hdiff, abs_neg, abs_of_nonneg (by positivity)]
    rw [div_le_div_iff (by positivity) hMpos]
    have hkey : (n : ℚ) * ((u32Max % d : ℕ) : ℚ) ≤ ((d : ℚ) - 1) * (d : ℚ) := by
      calc (n : ℚ) * ((u32Max % d : ℕ) : ℚ) ≤ (d : ℚ) * (((d : ℚ)) - 1) :=
            mul_le_mul hnle hRle hRnn (by positivity)
        _ = ((d : ℚ) - 1) * (d : ℚ) := by ring
    calc (n : ℚ) * ((u32Max % d : ℕ) : ℚ) * ((u32Max : ℕ) : ℚ)
        ≤ ((d : ℚ) - 1) * (d : ℚ) * ((u32Max : ℕ) : ℚ) :=
          mul_le_mul_of_nonneg_right hkey (le_of_lt hMpos)
      _ = ((d : ℚ) - 1) * ((d : ℚ) * ((u32Max : ℕ) : ℚ)) := by ring
  exact ⟨hsome, hexact, hbound⟩

/-- Witness for C4 at `n = 1, d = 3`. -/
theorem c4_witness :
    Primant.from_ratio 1 3 = some ⟨1 * (u32Max / 3)⟩ ∧ 1 * (u32Max / 3) = 1431655765 :=
  ⟨(c4_from_ratio_approximation 1 3 (by decide) (by decide)).1, by decide⟩

/-- C10 (implicit): for `d ≠ 0` and `n ≤ d` the product
`n * (u32::MAX / d)` fits in a `u32`, so the `unchecked_mul` inside
`from_ratio_unchecked` cannot overflow when reached through `from_ratio` or
`try_from_ratio` — under their documented preconditions these constructors
never invoke undefined behavior (`none` here would model UB/panic). -/
theorem c10_unchecked_no_overflow (n d : ℕ) (hd : d ≠ 0) (hnd : n ≤ d) :
    n * (u32Max / d) ≤ u32Max
    ∧ Primant.from_ratio_unchecked n d = some ⟨n * (u32Max / d)⟩
    ∧ Primant.from_ratio n d ≠ none
    ∧ Primant.try_from_ratio n d ≠ none := by
  have hQle : n * (u32Max / d) ≤ u32Max := ratio_no_overflow n d hnd
  have hunch : Primant.from_ratio_unchecked n d = some ⟨n * (u32Max / d)⟩ := by
    unfold Primant.from_ratio_unchecked uncheckedMul
    rw [if_neg hd, if_pos hQle]
    rfl
  refine ⟨hQle, hunch, ?_, ?_⟩
  · unfold Primant.from_ratio
    rw [if_neg hd, if_neg (by omega), hunch]
    simp
  · unfold Primant.try_from_ratio
    rw [if_neg (by omega), hunch]
    simp

/-- Witness for C10 at `n = 3, d = 7`. -/
theorem c10_witness :
    3 * (u32Max / 7) ≤ u32Max ∧ Primant.from_ratio_unchecked 3 7 = some ⟨3 * (u32Max / 7)⟩ :=
  ⟨(c10_unchecked_no_overflow 3 7 (by decide) (by decide)).1,
    (c10_unchecked_no_overflow 3 7 (by decide) (by decide)).2.1⟩

/-! ## C7: ordering correspondence raw codes ↔ f64 values -/

theorem flLt_fin (x y : ℚ) : flLt (.fin x) (.fin y) = decide (x < y) := rfl

/-- Division of a raw code by `u32::MAX` lands in `[0, 1]`, where one
rounding step moves the value by at most `2 ^ (-53)`. -/
theorem rnd53_div_err (r : ℕ) (hr : r ≤ u32Max) :
    |rnd 53 ((r : ℚ) / ((u32Max : ℕ) : ℚ)) - (r : ℚ) / ((u32Max : ℕ) : ℚ)|
      ≤ 2 ^ (-53 : ℤ) := by
  have hMpos : (0 : ℚ) < ((u32Max : ℕ) : ℚ) := by rw [u32Max_cast]; norm_num
  rcases Nat.eq_zero_or_pos r with hr0 | hrpos
  · subst hr0
    simp [rnd_zero]
    positivity
  · set q : ℚ := (r : ℚ) / ((u32Max : ℕ) : ℚ) with hq
    have hqpos : 0 < q := by
      apply div_pos _ hMpos
      exact_mod_cast hrpos
    have hqle : q ≤ 1 := by
      rw [hq, div_le_one hMpos]
      exact_mod_cast hr
    have hlog : Int.log 2 q ≤ 0 := by
      apply log2_le_of_lt hqpos
      calc q ≤ 1 := hqle
        _ < 2 ^ ((0 : ℤ) + 1) := by norm_num
    rw [rnd_of_pos 53 hqpos]
    calc |rndPos 53 q - q| ≤ 2 ^ (Int.log 2 q - 53) := rndPos_err 53 hqpos
      _ ≤ 2 ^ (-53 : ℤ) := two_zpow_mono (by omega)

/-- Strict monotonicity of the code → f64 map: adjacent codes are `1/MAXCODE`
apart, far more than two rounding errors of `2 ^ (-53)` each. -/
theorem rnd53_div_strictMono {r1 r2 : ℕ} (h12 : r1 < r2) (h2 : r2 ≤ u32Max) :
    rnd 53 ((r1 : ℚ) / ((u32Max : ℕ) : ℚ)) < rnd 53 ((r2 : ℚ) / ((u32Max : ℕ) : ℚ)) := by
  have hMpos : (0 : ℚ) < ((u32Max : ℕ) : ℚ) := by rw [u32Max_cast]; norm_num
  have e1 := abs_le.mp (rnd53_div_err r1 (le_trans (le_of_lt h12) h2))
  have e2 := abs_le.mp (rnd53_div_err r2 h2)
  have hgap : (r1 : ℚ) / ((u32Max : ℕ) : ℚ) + 1 / ((u32Max : ℕ) : ℚ)
      ≤ (r2 : ℚ) / ((u32Max : ℕ) : ℚ) := by
    rw [div_add_div_same, div_le_div_iff hMpos hMpos]
    have : (r1 : ℚ) + 1 ≤ (r2 : ℚ) := by exact_mod_cast h12
    nlinarith
  have hc : (2 : ℚ) ^ (-53 : ℤ) + 2 ^ (-53 : ℤ) < 1 / ((u32Max : ℕ) : ℚ) := by
    rw [u32Max_cast]
    norm_num
  linarith

theorem to_f64_primant (r : ℕ) (hr : r < 2 ^ 32) :
    Primant.to_f64 ⟨r⟩ = .fin (rnd 53 ((r : ℚ) / ((u32Max : ℕ) : ℚ))) := by
  unfold Primant.to_f64
  rw [rnd53_u32Max, rnd_natCast 53 r (lt_trans hr (by norm_num)),
    flDiv_fin 53 _ _ u32Max_q_ne_zero]

theorem to_f64_phase (r : ℕ) (hr : r < 2 ^ 32) :
    Phase.to_f64 ⟨r⟩ = .fin (rnd 53 ((r : ℚ) / ((u32Max : ℕ) : ℚ))) := by
  unfold Phase.to_f64
  rw [rnd53_u32Max, rnd_natCast 53 r (lt_trans hr (by norm_num)),
    flDiv_fin 53 _ _ u32Max_q_ne_zero]

theorem code_lt_iff_f64_lt (a b : ℕ) (ha : a < 2 ^ 32) (hb : b < 2 ^ 32) :
    a < b ↔ rnd 53 ((a : ℚ) / ((u32Max : ℕ) : ℚ)) < rnd 53 ((b : ℚ) / ((u32Max : ℕ) : ℚ)) := by
  constructor
  · intro h
    exact rnd53_div_strictMono h (by unfold u32Max; omega)
  · intro h
    by_contra hc
    push_neg at hc
    rcases lt_or_eq_of_le hc with hlt | heq
    · exact absurd (rnd53_div_strictMono hlt (by unfold u32Max; omega)) (by linarith)
    · rw [heq] at h
      exact lt_irrefl _ h

theorem code_eq_iff_f64_eq (a b : ℕ) (ha : a < 2 ^ 32) (hb : b < 2 ^ 32) :
    a = b ↔ rnd 53 ((a : ℚ) / ((u32Max : ℕ) : ℚ)) = rnd 53 ((b : ℚ) / ((u32Max : ℕ) : ℚ)) := by
  constructor
  · intro h
    rw [h]
  · intro h
    by_contra hne
    rcases Nat.lt_or_ge a b with hlt | hge
    · exact absurd h (ne_of_lt ((code_lt_iff_f64_lt a b ha hb).mp hlt))
    · rcases lt_or_eq_of_le hge with hlt | heq
      · exact absurd h.symm (ne_of_lt ((code_lt_iff_f64_lt b a hb ha).mp hlt))
      · exact hne heq.symm

/-- C7: for raw codes `r1, r2` of either type, `to_raw` order and equality
coincide with order and equality of the `f64` values produced by the `From`
impls: `a.to_raw() < b.to_raw()` iff `f64::from(a) < f64::from(b)`, and
likewise for `==` — the code → value map is strictly monotonic. -/
theorem c7_ordering_correspondence (r1 r2 : ℕ) (h1 : r1 < 2 ^ 32) (h2 : r2 < 2 ^ 32) :
    ((Primant.from_raw r1).to_raw < (Primant.from_raw r2).to_raw
      ↔ flLt (Primant.to_f64 (Primant.from_raw r1)) (Primant.to_f64 (Primant.from_raw r2)) = true)
    ∧ ((Primant.from_raw r1).to_raw = (Primant.from_raw r2).to_raw
      ↔ Primant.to_f64 (Primant.from_raw r1) = Primant.to_f64 (Primant.from_raw r2))
    ∧ ((Phase.from_raw r1).to_raw < (Phase.from_raw r2).to_raw
      ↔ flLt (Phase.to_f64 (Phase.from_raw r1)) (Phase.to_f64 (Phase.from_raw r2)) = true)
    ∧ ((Phase.from_raw r1).to_raw = (Phase.from_raw r2).to_raw
      ↔ Phase.to_f64 (Phase.from_raw r1) = Phase.to_f64 (Phase.from_raw r2)) := by
  unfold Primant.from_raw Primant.to_raw Phase.from_raw Phase.to_raw
  rw [to_f64_primant r1 h1, to_f64_primant r2 h2, to_f64_phase r1 h1, to_f64_phase r2 h2]
  simp only [flLt_fin, decide_eq_true_eq, Fl.fin.injEq]
  exact ⟨code_lt_iff_f64_lt r1 r2 h1 h2, code_eq_iff_f64_eq r1 r2 h1 h2,
    code_lt_iff_f64_lt r1 r2 h1 h2, code_eq_iff_f64_eq r1 r2 h1 h2⟩

/-- Witness for C7 at raw codes 1 and 2. -/
theorem c7_witness :
    (Primant.from_raw 1).to_raw < (Primant.from_raw 2).to_raw
    ↔ flLt (Primant.to_f64 (Primant.from_raw 1)) (Primant.to_f64 (Primant.from_raw 2)) = true :=
  (c7_ordering_correspondence 1 2 (by norm_num) (by norm_num)).1

/-! ## C6: checked conversions and the `UnrepresentableScale` condition -/

theorem guard_checked_primant_false (x : ℚ) (h0 : 0 ≤ x) (h1 : x ≤ 1) :
    (flLt (.fin x) (.fin 0) || flGt (.fin x) (.fin 1)) = false := by
  unfold flGt
  rw [flLt_fin, flLt_fin, decide_eq_false (by linarith), decide_eq_false (by linarith)]
  rfl

theorem guard_checked_phase_false (x : ℚ) (h0 : 0 ≤ x) (h1 : x < 1) :
    (flLt (.fin x) (.fin 0) || flGe (.fin x) (.fin 1)) = false := by
  unfold flGe
  rw [flLt_fin]
  show (decide (x < 0) || decide ((1:ℚ) ≤ x)) = false
  rw [decide_eq_false (by linarith), decide_eq_false (by linarith)]
  rfl

theorem toU32f32_of_le (q : ℚ) (h0 : 0 ≤ q) (h1 : q ≤ 4294967296) :
    toU32f32 (.fin q) = some (min (truncQ q).toNat u32Max) := by
  rw [toU32f32_fin, if_pos ⟨by linarith, h1⟩]

theorem rnd24_scaled_bounds (x : ℚ) (h0 : 0 ≤ x) (h1 : x ≤ 1) :
    0 ≤ rnd 24 (x * 4294967296) ∧ rnd 24 (x * 4294967296) ≤ 4294967296 := by
  constructor
  · exact rnd_nonneg 24 (by positivity)
  · have h2 : x * 4294967296 ≤ 4294967296 := by nlinarith
    have h3 : rnd 24 (x * 4294967296) ≤ rnd 24 4294967296 :=
      rnd_mono (by norm_num) (by positivity) h2
    rw [rnd24_pow32] at h3
    exact h3

/-- C6 counterexample: `u32::MAX` is not exactly representable in `f32` (its
cast rounds to `2^32`), yet the checked conversion
`Primant::try_from_float::<f32>(0.5)` does not return `None` — it silently
proceeds with the rounded multiplier and yields raw code `2^31`. -/
theorem c6_counterexample :
    rnd 24 ((u32Max : ℕ) : ℚ) ≠ ((u32Max : ℕ) : ℚ)
    ∧ Primant.try_from_float f32fmt (.fin (1/2)) = some ⟨2147483648⟩ := by
  constructor
  · rw [rnd24_u32Max, u32Max_cast]
    norm_num
  · unfold Primant.try_from_float
    rw [if_neg (by rw [guard_checked_primant_false (1/2) (by norm_num) (by norm_num)]; simp)]
    rw [f32fmt_toU32, f32fmt_p, ofU32_32, rnd24_u32Max, flMul_fin]
    have hprod : (1/2 : ℚ) * 4294967296 = 2147483648 := by norm_num
    rw [hprod, rnd_eq_self ⟨1, 31, by norm_num, by norm_num⟩]
    rw [toU32f32_of_le _ (by norm_num) (by norm_num)]
    rw [truncQ_ofNat _ 2147483648 (by norm_num) (by rw [Int.floor_eq_iff] <;> norm_num)]
    show some (Primant.mk (min (Int.toNat 2147483648) u32Max)) = some ⟨2147483648⟩
    have htn : Int.toNat 2147483648 = 2147483648 := rfl
    rw [htn]
    norm_num [u32Max]

/-- C6 amended: the checked conversions would propagate a failed (`None`)
cast of `u32::MAX` into the float type, but `num_traits`' cast never fails —
for `f32` it rounds `u32::MAX` to `2^32` and succeeds — so no
`UnrepresentableScale` failure exists: for every in-domain input the `f32`
checked conversions of both types succeed. -/
theorem c6_checked_cast_never_fails (x : ℚ) (h0 : 0 ≤ x) (h1 : x ≤ 1) :
    f32fmt.ofU32 u32Max = .fin 4294967296
    ∧ (∃ r : ℕ, Primant.try_from_float f32fmt (.fin x) = some ⟨r⟩)
    ∧ (x < 1 → ∃ r : ℕ, Phase.try_from_float f32fmt (.fin x) = some ⟨r⟩) := by
  obtain ⟨hP0, hP1⟩ := rnd24_scaled_bounds x h0 h1
  refine ⟨by rw [ofU32_32, rnd24_u32Max], ?_, ?_⟩
  · refine ⟨min (truncQ (rnd 24 (x * 4294967296))).toNat u32Max, ?_⟩
    unfold Primant.try_from_float
    rw [if_neg (by rw [guard_checked_primant_false x h0 h1]; simp)]
    rw [f32fmt_toU32, f32fmt_p, ofU32_32, rnd24_u32Max, flMul_fin]
    rw [toU32f32_of_le _ hP0 hP1]
    rfl
  · intro hx1
    refine ⟨min (truncQ (rnd 24 (x * 4294967296))).toNat u32Max, ?_⟩
    unfold Phase.try_from_float
    rw [if_neg (by rw [guard_checked_phase_false x h0 hx1]; simp)]
    rw [f32fmt_toU32, f32fmt_p, ofU32_32, rnd24_u32Max, flMul_fin]
    rw [toU32f32_of_le _ hP0 hP1]
    rfl

/-- Witness for C6 (amended) at `x = 1/4`. -/
theorem c6_witness :
    f32fmt.ofU32 u32Max = .fin 4294967296
    ∧ (∃ r : ℕ, Primant.try_from_float f32fmt (.fin (1/4)) = some ⟨r⟩) :=
  ⟨(c6_checked_cast_never_fails (1/4) (by norm_num) (by norm_num)).1,
    (c6_checked_cast_never_fails (1/4) (by norm_num) (by norm_num)).2.1⟩

/-! ## Saturating conversion path (shared by C3 and C8) -/

theorem truncQ_eq_floor {q : ℚ} (h : 0 ≤ q) : truncQ q = ⌊q⌋ := by
  unfold truncQ
  rw [if_pos h]

/-- An in-domain value passes through `num_traits::clamp` unchanged. -/
theorem clampF_of_mem (x : ℚ) (h0 : 0 ≤ x) (h1 : x ≤ 1) :
    clampF (.fin x) (.fin 0) (.fin 1) = .fin x := by
  unfold clampF flGt
  rw [flLt_fin, flLt_fin, decide_eq_false (by linarith), decide_eq_false (by linarith)]
  simp

theorem clampF_above : clampF (.fin 2) (.fin 0) (.fin 1) = .fin 1 := by
  unfold clampF flGt
  rw [flLt_fin, flLt_fin, decide_eq_false (by norm_num), decide_eq_true (by norm_num)]
  simp

theorem clampF_below : clampF (.fin (-1)) (.fin 0) (.fin 1) = .fin 0 := by
  unfold clampF
  rw [flLt_fin, decide_eq_true (by norm_num)]
  simp

/-- Rust `num_traits::clamp` returns a NaN input unchanged: both comparisons with
NaN are false. -/
theorem clampF_nan : clampF .nan (.fin 0) (.fin 1) = .nan := by
  unfold clampF flGt
  simp [flLt]

theorem toU32f64_of_lt (q : ℚ) (h0 : 0 ≤ q) (h1 : q < 4294967296) :
    toU32f64 (.fin q) = some (truncQ q).toNat := by
  rw [toU32f64_fin, if_pos ⟨by linarith, h1⟩]

theorem rnd53_scaled_bounds (x : ℚ) (h0 : 0 ≤ x) (h1 : x ≤ 1) :
    0 ≤ rnd 53 (x * ((u32Max : ℕ) : ℚ))
    ∧ rnd 53 (x * ((u32Max : ℕ) : ℚ)) ≤ ((u32Max : ℕ) : ℚ) := by
  have hMpos : (0 : ℚ) < ((u32Max : ℕ) : ℚ) := by rw [u32Max_cast]; norm_num
  constructor
  · exact rnd_nonneg 53 (by positivity)
  · have h2 : x * ((u32Max : ℕ) : ℚ) ≤ ((u32Max : ℕ) : ℚ) := by nlinarith
    have h3 := rnd_mono (p := 53) (by norm_num) (by positivity) h2
    rw [rnd53_u32Max] at h3
    exact h3

/-- The `f64` saturating conversion on an in-domain value: clamp is the
identity, the product is rounded, `to_u32` truncates. -/
theorem sat64_primant_eval (x : ℚ) (h0 : 0 ≤ x) (h1 : x ≤ 1) :
    Primant.from_float_saturating f64fmt (.fin x)
      = some ⟨(truncQ (rnd 53 (x * ((u32Max : ℕ) : ℚ)))).toNat⟩ := by
  obtain ⟨hP0, hP1⟩ := rnd53_scaled_bounds x h0 h1
  unfold Primant.from_float_saturating
  rw [f64fmt_toU32, f64fmt_p, ofU32_64, rnd53_u32Max, clampF_of_mem x h0 h1, flMul_fin]
  rw [toU32f64_of_lt _ hP0 (lt_of_le_of_lt hP1 (by rw [u32Max_cast]; norm_num))]
  rfl

theorem sat64_phase_eval (x : ℚ) (h0 : 0 ≤ x) (h1 : x ≤ 1) :
    Phase.from_float_saturating f64fmt (.fin x)
      = some ⟨(truncQ (rnd 53 (x * ((u32Max : ℕ) : ℚ)))).toNat⟩ := by
  obtain ⟨hP0, hP1⟩ := rnd53_scaled_bounds x h0 h1
  unfold Phase.from_float_saturating
  rw [f64fmt_toU32, f64fmt_p, ofU32_64, rnd53_u32Max, clampF_of_mem x h0 h1, flMul_fin]
  rw [toU32f64_of_lt _ hP0 (lt_of_le_of_lt hP1 (by rw [u32Max_cast]; norm_num))]
  rfl

/-- If a positive rational times `2^S` is an integer and the rational is not
itself an integer, its floor is at least `value - 1 + 2^(-S)` — the
fractional part is at most `1 - 2^(-S)`. -/
theorem floor_ge_of_scaled_int {P : ℚ} {S : ℕ} {N : ℤ} (hNP : P * 2 ^ S = (N : ℚ))
    (hne : (⌊P⌋ : ℚ) ≠ P) : P - 1 + ((2 : ℚ) ^ S)⁻¹ ≤ (⌊P⌋ : ℚ) := by
  have h2S : (0 : ℚ) < 2 ^ S := by positivity
  have hf0 : 0 ≤ P - (⌊P⌋ : ℚ) := by linarith [Int.floor_le P]
  have hf1 : P - (⌊P⌋ : ℚ) < 1 := by linarith [Int.lt_floor_add_one P]
  have hfpos : 0 < P - (⌊P⌋ : ℚ) := lt_of_le_of_ne hf0 (by
    intro hc
    exact hne (by linarith))
  have hJ : ((N - ⌊P⌋ * 2 ^ S : ℤ) : ℚ) = (P - (⌊P⌋ : ℚ)) * 2 ^ S := by
    push_cast
    rw [← hNP]
    ring
  have hJpos : 0 < N - ⌊P⌋ * 2 ^ S := by
    have : (0 : ℚ) < ((N - ⌊P⌋ * 2 ^ S : ℤ) : ℚ) := by
      rw [hJ]
      positivity
    exact_mod_cast this
  have hJlt : N - ⌊P⌋ * 2 ^ S < 2 ^ S := by
    have : ((N - ⌊P⌋ * 2 ^ S : ℤ) : ℚ) < ((2 ^ S : ℤ) : ℚ) := by
      rw [hJ]
      push_cast
      nlinarith
    exact_mod_cast this
  have hJle : ((N - ⌊P⌋ * 2 ^ S : ℤ) : ℚ) ≤ ((2 ^ S : ℤ) : ℚ) - 1 := by
    have h2 : N - ⌊P⌋ * 2 ^ S ≤ 2 ^ S - 1 := by omega
    push_cast
    exact_mod_cast h2
  have hfle : P - (⌊P⌋ : ℚ) ≤ 1 - ((2 : ℚ) ^ S)⁻¹ := by
    have h3 : (P - (⌊P⌋ : ℚ)) * 2 ^ S ≤ (2 : ℚ) ^ S - 1 := by
      rw [← hJ]
      push_cast at hJle ⊢
      linarith
    have h5 : P - (⌊P⌋ : ℚ) ≤ ((2 : ℚ) ^ S - 1) / 2 ^ S := by
      rw [le_div_iff h2S]
      exact h3
    calc P - (⌊P⌋ : ℚ) ≤ ((2 : ℚ) ^ S - 1) / 2 ^ S := h5
      _ = 1 - ((2 : ℚ) ^ S)⁻¹ := by field_simp
  linarith

/-! ## C8 core: the saturating round trip is accurate to `1/MAXCODE` -/

/-- Core error bound.  `y = x * MAXCODE` is the exact scaled input,
`P = rnd 53 y` the `f64` product, `kq = ⌊P⌋` the truncated code and
`F = rnd 53 (kq / Mq)` the reconstructed float; then `F` is within
`1 / MAXCODE` of the exact `y / MAXCODE`. -/
theorem roundtrip_core (Mq y P kq F : ℚ)
    (hMval : Mq = 4294967295)
    (hy0 : 0 ≤ y) (hyM : y ≤ Mq)
    (hP : P = rnd 53 y)
    (hkq : kq = ((⌊P⌋ : ℤ) : ℚ))
    (hF : F = rnd 53 (kq / Mq)) :
    |F - y / Mq| ≤ 1 / Mq := by
  have hMpos : (0 : ℚ) < Mq := by rw [hMval]; norm_num
  have hM0 : Mq ≠ 0 := ne_of_gt hMpos
  have hP0 : 0 ≤ P := hP ▸ rnd_nonneg 53 hy0
  have hrndM : rnd 53 Mq = Mq := rnd_eq_self ⟨4294967295, 0, by norm_num, by rw [hMval]; norm_num⟩
  have hPM : P ≤ Mq := by
    have h2 := rnd_mono (p := 53) (by norm_num) hy0 hyM
    rw [hrndM] at h2
    rw [hP]
    exact h2
  have hfl0 : 0 ≤ ⌊P⌋ := Int.floor_nonneg.mpr hP0
  have hkq0 : 0 ≤ kq := by rw [hkq]; exact_mod_cast hfl0
  have hkqP : kq ≤ P := by rw [hkq]; exact Int.floor_le P
  have hkqM : kq ≤ Mq := le_trans hkqP hPM
  rcases eq_or_lt_of_le hy0 with hy0' | hypos
  · -- y = 0: everything collapses to 0
    have hPz : P = 0 := by rw [hP, ← hy0', rnd_zero]
    have hkz : kq = 0 := by rw [hkq, hPz]; simp
    have hFz : F = 0 := by rw [hF, hkz, zero_div, rnd_zero]
    rw [hFz, ← hy0', zero_div, sub_zero, abs_zero]
    positivity
  · -- y > 0
    have hPpos : 0 < P := hP ▸ rnd_pos hypos (by norm_num)
    have hey : Int.log 2 y ≤ 31 := by
      apply log2_le_of_lt hypos
      rw [hMval] at hyM
      calc y ≤ 4294967295 := hyM
        _ < 2 ^ ((31 : ℤ) + 1) := by norm_num
    have herr : |P - y| ≤ 2 ^ (Int.log 2 y - 53) := by
      rw [hP, rnd_of_pos 53 hypos]
      exact rndPos_err 53 hypos
    have herr' := abs_le.mp herr
    by_cases hk0 : ⌊P⌋ = 0
    · -- truncated code 0: the input was below one code unit
      have hy1 : y < 1 := by
        by_contra hc
        push_neg at hc
        have he0 : (0 : ℤ) ≤ Int.log 2 y := le_log2_of_le hypos (by simpa using hc)
        have hPge : (1 : ℚ) ≤ P := by
          calc (1 : ℚ) = 2 ^ (0 : ℤ) := by norm_num
            _ ≤ 2 ^ (Int.log 2 y) := two_zpow_mono he0
            _ ≤ rndPos 53 y := rndPos_ge_zpow hypos (by norm_num)
            _ = P := by rw [hP, rnd_of_pos 53 hypos]
        have h1le : 1 ≤ ⌊P⌋ := Int.le_floor.mpr (by exact_mod_cast hPge)
        omega
      have hFz : F = 0 := by
        rw [hF, hkq, hk0]
        simp [rnd_zero]
      rw [hFz, zero_sub, abs_neg, abs_of_nonneg (div_nonneg hy0 (le_of_lt hMpos))]
      exact (div_le_div_right hMpos).mpr (le_of_lt hy1)
    · -- truncated code at least 1
      have hk1 : 1 ≤ ⌊P⌋ := by omega
      have hkq1 : (1 : ℚ) ≤ kq := by rw [hkq]; exact_mod_cast hk1
      have hdecomp : F - y / Mq = (F - kq / Mq) + (kq - y) / Mq := by
        rw [sub_div]
        ring
      have hsplit : |F - y / Mq| ≤ |F - kq / Mq| + |kq - y| / Mq := by
        rw [hdecomp]
        calc |(F - kq / Mq) + (kq - y) / Mq| ≤ |F - kq / Mq| + |(kq - y) / Mq| :=
              abs_add _ _
          _ = |F - kq / Mq| + |kq - y| / Mq := by
              rw [abs_div, abs_of_pos hMpos]
      rcases eq_or_lt_of_le hkqP with hPk | hPk
      · -- case A: the product rounded to an integer, no truncation loss
        have hkerr : |kq - y| ≤ 2 ^ (-22 : ℤ) := by
          rw [hPk]
          exact le_trans herr (two_zpow_mono (by omega))
        have hqpos : 0 < kq / Mq := div_pos (by linarith) hMpos
        have hqle : kq / Mq ≤ 1 := by
          rw [div_le_one hMpos]
          exact hkqM
        have hFerr : |F - kq / Mq| ≤ 2 ^ (-53 : ℤ) := by
          have hlogq : Int.log 2 (kq / Mq) ≤ 0 := by
            apply log2_le_of_lt hqpos
            calc kq / Mq ≤ 1 := hqle
              _ < 2 ^ ((0 : ℤ) + 1) := by norm_num
          rw [hF, rnd_of_pos 53 hqpos]
          calc |rndPos 53 (kq / Mq) - kq / Mq| ≤ 2 ^ (Int.log 2 (kq / Mq) - 53) :=
                rndPos_err 53 hqpos
            _ ≤ 2 ^ (-53 : ℤ) := two_zpow_mono (by omega)
        have hnum : (2 : ℚ) ^ (-53 : ℤ) + 2 ^ (-22 : ℤ) / Mq ≤ 1 / Mq := by
          rw [hMval]
          norm_num
        calc |F - y / Mq| ≤ |F - kq / Mq| + |kq - y| / Mq := hsplit
          _ ≤ 2 ^ (-53 : ℤ) + 2 ^ (-22 : ℤ) / Mq := by
              have h6 := (div_le_div_right hMpos).mpr hkerr
              linarith
          _ ≤ 1 / Mq := hnum
      · -- case B: truncation loses a genuine fractional part
        have hne : (⌊P⌋ : ℚ) ≠ P := by
          rw [← hkq]
          exact ne_of_lt hPk
        have he0 : (0 : ℤ) ≤ Int.log 2 y := by
          by_contra hc
          push_neg at hc
          have hPle1 : P ≤ 1 := by
            calc P = rndPos 53 y := by rw [hP, rnd_of_pos 53 hypos]
              _ ≤ 2 ^ (Int.log 2 y + 1) := rndPos_le_zpow 53 hypos
              _ ≤ 2 ^ (0 : ℤ) := two_zpow_mono (by omega)
              _ = 1 := by norm_num
          linarith
        set e : ℤ := Int.log 2 y with he
        set S : ℕ := (52 - e).toNat with hSdef
        have hS : (52 : ℤ) - e = (S : ℤ) := by
          rw [hSdef]
          omega
        have hNP : P * 2 ^ S = ((rhe (y * 2 ^ (((53 : ℕ) : ℤ) - 1 - e)) : ℤ) : ℚ) := by
          rw [hP, rnd_of_pos 53 hypos]
          unfold rndPos
          rw [← he]
          have hzS : (2 : ℚ) ^ (S : ℕ) = 2 ^ ((52 : ℤ) - e) := by
            rw [← zpow_natCast (2 : ℚ) S, ← hS]
          rw [hzS, mul_assoc, ← zpow_add₀ (by norm_num : (2 : ℚ) ≠ 0)]
          have hzero : e - (((53 : ℕ) : ℤ) - 1) + ((52 : ℤ) - e) = 0 := by
            push_cast
            omega
          rw [hzero]
          norm_num
        have hSinv : ((2 : ℚ) ^ (S : ℕ))⁻¹ = 2 ^ (e - 52) := by
          rw [← zpow_natCast (2 : ℚ) S, ← hS, ← zpow_neg]
          congr 1
          omega
        have hklow : P - 1 + (2 : ℚ) ^ (e - 52) ≤ kq := by
          rw [hkq, ← hSinv]
          exact floor_ge_of_scaled_int hNP hne
        have hpow_split : (2 : ℚ) ^ (e - 52) = 2 ^ (e - 53) + 2 ^ (e - 53) := by
          rw [show e - 52 = 1 + (e - 53) by omega, zpow_add₀ (by norm_num : (2 : ℚ) ≠ 0)]
          rw [zpow_one]
          ring
        have hkylow : -(1 - 2 ^ (e - 53)) ≤ kq - y := by
          have h7 : y - 2 ^ (e - 53) ≤ P := by linarith [herr'.1]
          have h8 := hklow
          rw [hpow_split] at h8
          linarith
        have hkyhigh : kq - y ≤ 2 ^ (e - 53) := by
          have h9 : P ≤ y + 2 ^ (e - 53) := by linarith [herr'.2]
          linarith
        have habs_ky : |kq - y| ≤ 1 - 2 ^ (e - 53) := by
          apply abs_le.mpr
          refine ⟨by linarith, ?_⟩
          have h10 : (2 : ℚ) ^ (e - 53) ≤ 2 ^ (-22 : ℤ) := two_zpow_mono (by omega)
          have h11 : (2 : ℚ) ^ (-22 : ℤ) ≤ 1 / 2 := by norm_num
          linarith
      -- split on whether the code is the top code
        rcases eq_or_lt_of_le hkqM with hkM | hkM
        · -- top code: the reverse conversion is exactly 1
          have hF1 : F = 1 := by
            rw [hF, hkM, div_self hM0]
            exact rnd53_one
          have h12 : F - y / Mq = (kq - y) / Mq := by
            rw [hF1, ← hkM]
            field_simp
          rw [h12, abs_div, abs_of_pos hMpos]
          apply (div_le_div_right hMpos).mpr
          have h13 := two_zpow_pos (e - 53)
          linarith
        · -- interior code: one more rounding, in a binade small enough
          have hkpos : (0 : ℚ) < kq := by linarith
          have hqpos : 0 < kq / Mq := div_pos hkpos hMpos
          have hPle : P ≤ 2 ^ (e + 1) := by
            calc P = rndPos 53 y := by rw [hP, rnd_of_pos 53 hypos]
              _ ≤ 2 ^ (Int.log 2 y + 1) := rndPos_le_zpow 53 hypos
              _ = 2 ^ (e + 1) := by rw [← he]
          have hE1 : (2 : ℚ) ^ (e + 1) = ((2 ^ (e + 1).toNat : ℤ) : ℚ) := by
            set n : ℕ := (e + 1).toNat with hn
            have h14 : e + 1 = (n : ℤ) := by omega
            rw [h14, zpow_natCast]
            push_cast
            ring
          have hPlt : P < 2 ^ (e + 1) := by
            rcases eq_or_lt_of_le hPle with hPeq | h
            · exfalso
              apply hne
              rw [hPeq, hE1, Int.floor_intCast]
            · exact h
          have hkle : kq ≤ 2 ^ (e + 1) - 1 := by
            have h15 : ⌊P⌋ < 2 ^ (e + 1).toNat := by
              apply Int.floor_lt.mpr
              rw [← hE1]
              exact hPlt
            have h16 : ⌊P⌋ ≤ 2 ^ (e + 1).toNat - 1 := by omega
            rw [hkq]
            calc ((⌊P⌋ : ℤ) : ℚ) ≤ ((2 ^ (e + 1).toNat - 1 : ℤ) : ℚ) := by exact_mod_cast h16
              _ = 2 ^ (e + 1) - 1 := by
                  rw [show ((2 ^ (e + 1).toNat - 1 : ℤ) : ℚ)
                      = ((2 ^ (e + 1).toNat : ℤ) : ℚ) - 1 by push_cast; ring, ← hE1]
          have hbinade : kq < 2 ^ (e - 31) * Mq := by
            rcases le_or_lt e 30 with he30 | he31
            · have h17 : kq * 2 ^ (31 : ℤ) < 2 ^ e * Mq := by
                have h18 : kq * 2 ^ (31 : ℤ) ≤ (2 ^ (e + 1) - 1) * 2 ^ (31 : ℤ) :=
                  mul_le_mul_of_nonneg_right hkle (le_of_lt (two_zpow_pos _))
                have h19 : ((2 : ℚ) ^ (e + 1) - 1) * 2 ^ (31 : ℤ) = 2 ^ (e + 32) - 2 ^ (31 : ℤ) := by
                  rw [sub_mul, ← zpow_add₀ (by norm_num : (2 : ℚ) ≠ 0), one_mul]
                  congr 2
                  omega
                have h20 : (2 : ℚ) ^ e * Mq = 2 ^ (e + 32) - 2 ^ e := by
                  rw [hMval]
                  have h21 : (4294967295 : ℚ) = 2 ^ (32 : ℤ) - 1 := by norm_num
                  rw [h21, mul_sub, mul_one, ← zpow_add₀ (by norm_num : (2 : ℚ) ≠ 0)]
                have h22 : (2 : ℚ) ^ (31 : ℤ) > 2 ^ e := by
                  have := two_zpow_mono (show e ≤ 30 from he30)
                  have h23 : (2 : ℚ) ^ (30 : ℤ) < 2 ^ (31 : ℤ) := by norm_num
                  linarith
                linarith
              have h24 : (2 : ℚ) ^ (e - 31) * Mq * 2 ^ (31 : ℤ) = 2 ^ e * Mq := by
                rw [mul_comm ((2:ℚ) ^ (e - 31)) Mq, mul_assoc,
                  ← zpow_add₀ (by norm_num : (2 : ℚ) ≠ 0)]
                rw [show e - 31 + 31 = e by omega]
                ring
              have h25 : kq * 2 ^ (31 : ℤ) < 2 ^ (e - 31) * Mq * 2 ^ (31 : ℤ) := by
                rw [h24]
                exact h17
              exact (mul_lt_mul_right (two_zpow_pos (31 : ℤ))).mp h25
            · have he31' : e = 31 := by omega
              rw [he31']
              norm_num
              exact hkM
          have hek : Int.log 2 (kq / Mq) ≤ e - 32 := by
            apply log2_le_of_lt hqpos
            rw [show e - 32 + 1 = e - 31 by omega, div_lt_iff hMpos]
            rw [mul_comm]
            rw [mul_comm] at hbinade
            exact hbinade
          have hFerr : |F - kq / Mq| ≤ 2 ^ (e - 85) := by
            rw [hF, rnd_of_pos 53 hqpos]
            calc |rndPos 53 (kq / Mq) - kq / Mq| ≤ 2 ^ (Int.log 2 (kq / Mq) - 53) :=
                  rndPos_err 53 hqpos
              _ ≤ 2 ^ (e - 85) := two_zpow_mono (by omega)
          have h2e85 : (2 : ℚ) ^ (e - 85) * Mq ≤ 2 ^ (e - 53) := by
            calc (2 : ℚ) ^ (e - 85) * Mq ≤ 2 ^ (e - 85) * 2 ^ (32 : ℤ) := by
                  apply mul_le_mul_of_nonneg_left _ (le_of_lt (two_zpow_pos _))
                  rw [hMval]
                  norm_num
              _ = 2 ^ (e - 53) := by
                  rw [← zpow_add₀ (by norm_num : (2 : ℚ) ≠ 0)]
                  congr 1
                  omega
          have hlast : (2 : ℚ) ^ (e - 85) + (1 - 2 ^ (e - 53)) / Mq ≤ 1 / Mq := by
            apply (mul_le_mul_right hMpos).mp
            have h26 : ((2 : ℚ) ^ (e - 85) + (1 - 2 ^ (e - 53)) / Mq) * Mq
                = 2 ^ (e - 85) * Mq + (1 - 2 ^ (e - 53)) := by
              field_simp
            have h27 : (1 / Mq) * Mq = 1 := by
              field_simp
            rw [h26, h27]
            linarith
          calc |F - y / Mq| ≤ |F - kq / Mq| + |kq - y| / Mq := hsplit
            _ ≤ 2 ^ (e - 85) + (1 - 2 ^ (e - 53)) / Mq := by
                have h28 := (div_le_div_right hMpos).mpr habs_ky
                linarith
            _ ≤ 1 / Mq := hlast

theorem into_float_f64_eval (r : ℕ) (hr : r < 2 ^ 32) :
    Primant.into_float f64fmt ⟨r⟩ = .fin (rnd 53 ((r : ℚ) / ((u32Max : ℕ) : ℚ))) := by
  unfold Primant.into_float Fmt.ofU32
  show flDiv 53 (.fin (rnd 53 (r : ℚ))) (.fin (rnd 53 ((u32Max : ℕ) : ℚ))) = _
  rw [rnd53_u32Max, rnd_natCast 53 r (lt_trans hr (by norm_num)),
    flDiv_fin 53 _ _ u32Max_q_ne_zero]

/-- C8: for every rational `x` in `[0, 1]` — in particular every valid float
in either type's domain — the `f64` saturating conversion succeeds with some
code `k ≤ u32::MAX`, and converting `k` back to `f64` (via `into_float` or
the `From` impls) lands within one code unit `1 / MAXCODE` of `x`. -/
theorem c8_saturating_roundtrip (x : ℚ) (h0 : 0 ≤ x) (h1 : x ≤ 1) :
    ∃ k : ℕ, k ≤ u32Max
      ∧ Primant.from_float_saturating f64fmt (.fin x) = some ⟨k⟩
      ∧ Phase.from_float_saturating f64fmt (.fin x) = some ⟨k⟩
      ∧ Primant.into_float f64fmt ⟨k⟩ = .fin (rnd 53 ((k : ℚ) / ((u32Max : ℕ) : ℚ)))
      ∧ Phase.to_f64 ⟨k⟩ = .fin (rnd 53 ((k : ℚ) / ((u32Max : ℕ) : ℚ)))
      ∧ |rnd 53 ((k : ℚ) / ((u32Max : ℕ) : ℚ)) - x| ≤ 1 / ((u32Max : ℕ) : ℚ) := by
  have hMpos : (0 : ℚ) < ((u32Max : ℕ) : ℚ) := by rw [u32Max_cast]; norm_num
  obtain ⟨hP0, hPM⟩ := rnd53_scaled_bounds x h0 h1
  have hfl0 : (0 : ℤ) ≤ ⌊rnd 53 (x * ((u32Max : ℕ) : ℚ))⌋ := Int.floor_nonneg.mpr hP0
  have htr : truncQ (rnd 53 (x * ((u32Max : ℕ) : ℚ)))
      = ⌊rnd 53 (x * ((u32Max : ℕ) : ℚ))⌋ := truncQ_eq_floor hP0
  set k : ℕ := (truncQ (rnd 53 (x * ((u32Max : ℕ) : ℚ)))).toNat with hk
  have hkcast : ((k : ℕ) : ℚ) = ((⌊rnd 53 (x * ((u32Max : ℕ) : ℚ))⌋ : ℤ) : ℚ) := by
    rw [hk, htr]
    have h3 : (⌊rnd 53 (x * ((u32Max : ℕ) : ℚ))⌋.toNat : ℤ)
        = ⌊rnd 53 (x * ((u32Max : ℕ) : ℚ))⌋ := Int.toNat_of_nonneg hfl0
    exact_mod_cast h3
  have hkM : k ≤ u32Max := by
    have h2 : ((k : ℕ) : ℚ) ≤ ((u32Max : ℕ) : ℚ) := by
      rw [hkcast]
      calc ((⌊rnd 53 (x * ((u32Max : ℕ) : ℚ))⌋ : ℤ) : ℚ)
          ≤ rnd 53 (x * ((u32Max : ℕ) : ℚ)) := Int.floor_le _
        _ ≤ ((u32Max : ℕ) : ℚ) := hPM
    exact_mod_cast h2
  have hk32 : k < 2 ^ 32 := lt_of_le_of_lt hkM (by norm_num [u32Max])
  have herrb : |rnd 53 ((k : ℚ) / ((u32Max : ℕ) : ℚ)) - x| ≤ 1 / ((u32Max : ℕ) : ℚ) := by
    have hcore := roundtrip_core ((u32Max : ℕ) : ℚ) (x * ((u32Max : ℕ) : ℚ))
      (rnd 53 (x * ((u32Max : ℕ) : ℚ)))
      ((⌊rnd 53 (x * ((u32Max : ℕ) : ℚ))⌋ : ℤ) : ℚ)
      (rnd 53 (((⌊rnd 53 (x * ((u32Max : ℕ) : ℚ))⌋ : ℤ) : ℚ) / ((u32Max : ℕ) : ℚ)))
      u32Max_cast (by positivity) (by nlinarith) rfl rfl rfl
    have hxeq : x * ((u32Max : ℕ) : ℚ) / ((u32Max : ℕ) : ℚ) = x :=
      mul_div_cancel_right₀ x u32Max_q_ne_zero
    rw [hxeq] at hcore
    rw [hkcast]
    exact hcore
  exact ⟨k, hkM, sat64_primant_eval x h0 h1, sat64_phase_eval x h0 h1,
    into_float_f64_eval k hk32, to_f64_phase k hk32, herrb⟩

/-- Witness for C8 at `x = 1/2`. -/
theorem c8_witness :
    ∃ k : ℕ, k ≤ u32Max
      ∧ Primant.from_float_saturating f64fmt (.fin (1/2)) = some ⟨k⟩
      ∧ Phase.from_float_saturating f64fmt (.fin (1/2)) = some ⟨k⟩
      ∧ Primant.into_float f64fmt ⟨k⟩ = .fin (rnd 53 ((k : ℚ) / ((u32Max : ℕ) : ℚ)))
      ∧ Phase.to_f64 ⟨k⟩ = .fin (rnd 53 ((k : ℚ) / ((u32Max : ℕ) : ℚ)))
      ∧ |rnd 53 ((k : ℚ) / ((u32Max : ℕ) : ℚ)) - 1/2| ≤ 1 / ((u32Max : ℕ) : ℚ) :=
  c8_saturating_roundtrip (1/2) (by norm_num) (by norm_num)

/-! ## C3: saturating conversion clamps — and its NaN panic -/

/-- C3: the `f64` saturating conversions of both types clamp: at `2.0` they
produce raw code `u32::MAX`, at `-1.0` raw code `0`, and on any in-domain
value the truncated mapping `truncate(value * MAXCODE)` (float product).
But they do NOT succeed on every input: at NaN `clamp` returns NaN,
`to_u32` yields `None` and the `unwrap` panics (`none` here), contradicting
"never aborts on any input". -/
theorem c3_saturating_clamps (x : ℚ) (h0 : 0 ≤ x) (h1 : x ≤ 1) :
    Primant.from_float_saturating f64fmt (.fin 2) = some ⟨u32Max⟩
    ∧ Phase.from_float_saturating f64fmt (.fin 2) = some ⟨u32Max⟩
    ∧ Primant.from_float_saturating f64fmt (.fin (-1)) = some ⟨0⟩
    ∧ Phase.from_float_saturating f64fmt (.fin (-1)) = some ⟨0⟩
    ∧ Primant.from_float_saturating f64fmt (.fin x)
        = some ⟨(truncQ (rnd 53 (x * ((u32Max : ℕ) : ℚ)))).toNat⟩
    ∧ Phase.from_float_saturating f64fmt (.fin x)
        = some ⟨(truncQ (rnd 53 (x * ((u32Max : ℕ) : ℚ)))).toNat⟩
    ∧ Primant.from_float_saturating f64fmt .nan = none
    ∧ Phase.from_float_saturating f64fmt .nan = none := by
  have htop : ∀ fl : Fl, clampF fl (.fin 0) (.fin 1) = .fin 1 →
      (toU32f64 (flMul 53 (clampF fl (.fin 0) (.fin 1)) (.fin (rnd 53 ((u32Max : ℕ) : ℚ)))))
        = some u32Max := by
    intro fl hcl
    rw [hcl, rnd53_u32Max, flMul_fin, one_mul, rnd53_u32Max]
    rw [toU32f64_of_lt _ (by positivity) (by rw [u32Max_cast]; norm_num)]
    rw [truncQ_natCast]
    simp
  have hbot : ∀ fl : Fl, clampF fl (.fin 0) (.fin 1) = .fin 0 →
      (toU32f64 (flMul 53 (clampF fl (.fin 0) (.fin 1)) (.fin (rnd 53 ((u32Max : ℕ) : ℚ)))))
        = some 0 := by
    intro fl hcl
    rw [hcl, rnd53_u32Max, flMul_fin, zero_mul, rnd_zero]
    rw [toU32f64_of_lt _ (by norm_num) (by norm_num)]
    rw [truncQ_ofNat _ 0 (by norm_num) (by norm_num)]
    rfl
  refine ⟨?_, ?_, ?_, ?_, sat64_primant_eval x h0 h1, sat64_phase_eval x h0 h1, ?_, ?_⟩
  · unfold Primant.from_float_saturating
    rw [f64fmt_toU32, f64fmt_p, ofU32_64, htop _ clampF_above]
    rfl
  · unfold Phase.from_float_saturating
    rw [f64fmt_toU32, f64fmt_p, ofU32_64, htop _ clampF_above]
    rfl
  · unfold Primant.from_float_saturating
    rw [f64fmt_toU32, f64fmt_p, ofU32_64, hbot _ clampF_below]
    rfl
  · unfold Phase.from_float_saturating
    rw [f64fmt_toU32, f64fmt_p, ofU32_64, hbot _ clampF_below]
    rfl
  · unfold Primant.from_float_saturating
    rw [f64fmt_toU32, f64fmt_p, ofU32_64, clampF_nan]
    rfl
  · unfold Phase.from_float_saturating
    rw [f64fmt_toU32, f64fmt_p, ofU32_64, clampF_nan]
    rfl

/-- Witness for C3 at `x = 1/2`; the truncated code is `2147483647`. -/
theorem c3_witness :
    Primant.from_float_saturating f64fmt (.fin (1/2))
      = some ⟨(truncQ (rnd 53 ((1/2) * ((u32Max : ℕ) : ℚ)))).toNat⟩
    ∧ (truncQ (rnd 53 ((1/2) * ((u32Max : ℕ) : ℚ)))).toNat = 2147483647 := by
  refine ⟨(c3_saturating_clamps (1/2) (by norm_num) (by norm_num)).2.2.2.2.1, ?_⟩
  have hv : (1/2 : ℚ) * ((u32Max : ℕ) : ℚ) = 4294967295/2 := by
    rw [u32Max_cast]
    norm_num
  rw [hv, rnd_eq_self ⟨4503599626321920, -21, by norm_num, by norm_num⟩]
  rw [truncQ_ofNat _ 2147483647 (by norm_num) (by rw [Int.floor_eq_iff] <;> norm_num)]
  rfl

/-! ## C9: `Debug` formatting of `Primant`

`impl Debug for Primant` writes the literal text `Primant(`, then the `f64`
value with Rust's default `Display` formatting, then `)`.  Rust renders a
finite float as the shortest decimal that rounds back to the same float
(closest such decimal on that digit count, `core`'s flt2dec shortest mode),
positionally, never in scientific notation; `0.0` renders as `0`. -/

/-- Decimal digits of a natural number, least significant first.  Fuel-driven
structural recursion so the kernel can evaluate it; fuel 64 covers every
mantissa the shortest-decimal search below can produce. -/
def natDigitsAux : ℕ → ℕ → List ℕ
  | 0, _ => []
  | fuel + 1, n => if n = 0 then [] else n % 10 :: natDigitsAux fuel (n / 10)

def digitChar (d : ℕ) : Char :=
  if d = 0 then '0' else if d = 1 then '1' else if d = 2 then '2'
  else if d = 3 then '3' else if d = 4 then '4' else if d = 5 then '5'
  else if d = 6 then '6' else if d = 7 then '7' else if d = 8 then '8' else '9'

/-- Big-endian digit characters of `m` (`m` is positive in all uses). -/
def natDigits (m : ℕ) : List Char := ((natDigitsAux 64 m).reverse).map digitChar

/-- Positional rendering of `m * 10 ^ e` without exponent notation: digits,
padded with zeros or split by a decimal point, as Rust `Display` prints
floats. -/
def fmtDigits (m : ℕ) (e : ℤ) : String :=
  let ds := natDigits m
  if 0 ≤ e then String.mk (ds ++ List.replicate e.toNat '0')
  else
    let t := (-e).toNat
    if t < ds.length then
      String.mk (ds.take (ds.length - t) ++ '.' :: ds.drop (ds.length - t))
    else
      String.mk ('0' :: '.' :: (List.replicate (t - ds.length) '0' ++ ds))

/-- Round positive `q` to `s` significant decimal digits: decimal mantissa
and exponent. -/
def sigRound (s : ℕ) (q : ℚ) : ℤ × ℤ :=
  (rhe (q * 10 ^ ((s : ℤ) - 1 - Int.log 10 q)), Int.log 10 q - ((s : ℤ) - 1))

/-- Drop trailing zero digits of a decimal mantissa. -/
def stripZeros : ℕ → ℕ × ℤ → ℕ × ℤ
  | 0, me => me
  | fuel + 1, (m, e) => if m % 10 = 0 ∧ 10 ≤ m then stripZeros fuel (m / 10, e + 1) else (m, e)

/-- The shortest decimal (fewest significant digits, closest on that digit
count) that rounds back to `q` in precision `p` — the digit selection of
Rust `core`'s float `Display`. -/
def shortestDec (p : ℕ) : ℕ → ℕ → ℚ → ℕ × ℤ
  | 0, _, _ => (0, 0)
  | fuel + 1, s, q =>
    let me := sigRound s q
    if 0 ≤ me.1 ∧ rnd p ((me.1 : ℚ) * 10 ^ me.2) = q then
      stripZeros 64 (me.1.toNat, me.2)
    else shortestDec p fuel (s + 1) q

/-- Rust `Display` rendering of a finite float value of precision `p`. -/
def fmtQ (p : ℕ) (q : ℚ) : String :=
  if q = 0 then "0"
  else if q < 0 then "-" ++ (fmtDigits (shortestDec p 40 1 (-q)).1 (shortestDec p 40 1 (-q)).2)
  else fmtDigits (shortestDec p 40 1 q).1 (shortestDec p 40 1 q).2

/-- Rust `Display` of a float value, special values included. -/
def fmtFl (p : ℕ) : Fl → String
  | .fin q => fmtQ p q
  | .nan => "NaN"
  | .inf => "inf"
  | .ninf => "-inf"

/-- Rust `impl Debug for Primant`: the text `Primant(`, then
`f64::from(*self)` rendered by `Display`, then `)`. -/
def Primant.fmt_debug (self : Primant) : String :=
  "Primant(" ++ fmtFl 53 (Primant.to_f64 self) ++ ")"

theorem rhe_one : rhe (1 : ℚ) = 1 := by
  rw [show (1 : ℚ) = ((1 : ℤ) : ℚ) by norm_num]
  exact rhe_intCast 1

theorem fmt_debug_zero : Primant.fmt_debug (Primant.from_raw 0) = "Primant(0)" := by
  unfold Primant.fmt_debug Primant.from_raw
  rw [to_f64_primant 0 (by norm_num)]
  have h1 : (((0 : ℕ) : ℚ)) / ((u32Max : ℕ) : ℚ) = 0 := by norm_num
  rw [h1, rnd_zero]
  show "Primant(" ++ fmtQ 53 0 ++ ")" = "Primant(0)"
  unfold fmtQ
  rw [if_pos rfl]
  rfl

theorem shortestDec_one : shortestDec 53 40 1 1 = (1, 0) := by
  show shortestDec 53 (39 + 1) 1 1 = (1, 0)
  rw [shortestDec]
  have hlog : Int.log 10 (1 : ℚ) = 0 := Int.log_one_right 10
  have hsig : sigRound 1 (1 : ℚ) = (1, 0) := by
    unfold sigRound
    rw [hlog]
    norm_num
    exact rhe_one
  rw [hsig]
  have hrt : rnd 53 (((1 : ℤ) : ℚ) * 10 ^ (0 : ℤ)) = 1 := by
    norm_num
    exact rnd53_one
  rw [if_pos ⟨by norm_num, hrt⟩]
  rfl

theorem fmt_debug_max : Primant.fmt_debug (Primant.from_raw u32Max) = "Primant(1)" := by
  unfold Primant.fmt_debug Primant.from_raw
  have h1 : Primant.to_f64 ⟨u32Max⟩ = .fin 1 := divMaxMax53
  rw [h1]
  show "Primant(" ++ fmtQ 53 1 ++ ")" = "Primant(1)"
  unfold fmtQ
  rw [if_neg (by norm_num), if_neg (by norm_num), shortestDec_one]
  rfl

/-- C9 counterexample: the debug form of the value with raw code 0 is
`"Primant(0)"`, not `"SaturatingFraction(0)"` — the implementation prints
the source type name `Primant`, not the spec's name. -/
theorem c9_counterexample :
    Primant.fmt_debug (Primant.from_raw 0) ≠ "SaturatingFraction(0)" := by
  rw [fmt_debug_zero]
  decide

/-- C9 amended: the debug form is exactly `"Primant(<float>)"` with
`<float>` the default decimal rendering of the `f64` value: raw code 0
prints `"Primant(0)"` and raw code `u32::MAX` prints `"Primant(1)"`. -/
theorem c9_debug_format :
    Primant.fmt_debug (Primant.from_raw 0) = "Primant(0)"
    ∧ Primant.fmt_debug (Primant.from_raw u32Max) = "Primant(1)" :=
  ⟨fmt_debug_zero, fmt_debug_max⟩

end Unifrac
